import Mathlib

/-! Skin-lesion classification programs: batch loading, consumer loops, loss weights.

A shallow embedding of the two programs of the repository

* `src/skin_lesion_classification.cpp` (synchronous: `DLDataset::LoadBatch` in counted loops),
* `cpp/skin_lesion_classification_training.cpp` (asynchronous: a `DataGenerator` feeding
  the training and the validation loop, `LWCategoricalCrossEntropy`, `get_weights`),

followed by the properties proved about them.  Definitions come first, theorems after.
C `int` values are integers (`Int`), `/` on them is the truncating `Int.tdiv`; a `float`
value is the rational it denotes, and `get_weights`, whose returned numbers are the subject
of a property, rounds every `float` operation to binary32.
-/

namespace SkinLesion

/-! ## Dataset model shared by the programs -/

/-- The enumeration `ecvl::SplitType`. -/
inductive SplitType where
  | training
  | validation
  | test
deriving DecidableEq, Repr

/-- One value for each of the three splits (a `std::array<_, 3>` indexed by split). -/
structure PerSplit (α : Type) where
  training : α
  validation : α
  test : α
deriving DecidableEq, Repr

/-- Read the entry of a split. -/
def PerSplit.get {α : Type} (p : PerSplit α) : SplitType → α
  | .training => p.training
  | .validation => p.validation
  | .test => p.test

/-- Overwrite the entry of a split. -/
def PerSplit.set {α : Type} (p : PerSplit α) (s : SplitType) (v : α) : PerSplit α :=
  match s with
  | .training => { p with training := v }
  | .validation => { p with validation := v }
  | .test => { p with test := v }

/-- The state of an `ecvl::DLDataset` that the programs read and write: the batch size, the
three splits (each a sequence of sample indices), the selected split and one batch counter
per split.  The class lives in the ECVL library; a freshly constructed dataset selects the
training split and has all counters at zero. -/
structure DLDataset where
  batch_size_ : Int
  split_ : PerSplit (List Int)
  current_split_ : SplitType
  current_batch_ : PerSplit Nat
deriving DecidableEq, Repr

/-- The constructor call `DLDataset d(path, batch_size, augs)`: the splits are what the
dataset file declares. -/
def DLDataset.mk0 (batch_size : Int) (training validation test : List Int) : DLDataset :=
  { batch_size_ := batch_size
    split_ := ⟨training, validation, test⟩
    current_split_ := .training
    current_batch_ := ⟨0, 0, 0⟩ }

/-- The accessor `d.GetSplit()`: the sample indices of the selected split. -/
def DLDataset.GetSplit (d : DLDataset) : List Int :=
  d.split_.get d.current_split_

/-- The call `d.SetSplit(s)`. -/
def DLDataset.SetSplit (d : DLDataset) (s : SplitType) : DLDataset :=
  { d with current_split_ := s }

/-- The call `d.ResetAllBatches()`: every split restarts at its first batch. -/
def DLDataset.ResetAllBatches (d : DLDataset) : DLDataset :=
  { d with current_batch_ := ⟨0, 0, 0⟩ }

/-- What one `LoadBatch` call read: the split it read from, the positions of that split it
covered and the sample indices found there. -/
structure Load where
  split : SplitType
  positions : List Nat
  samples : List Int
deriving DecidableEq, Repr

/-- Modelled from the spec: `DLDataset::LoadBatch` is ECVL code, absent from the sources.
Following the batch assembler of the specification, the call with batch counter `b` covers
the positions `b*batch_size .. b*batch_size + batch_size - 1` of the selected split and
advances that split's counter by one. -/
def DLDataset.LoadBatch (d : DLDataset) : DLDataset × Load :=
  let bs := d.batch_size_.toNat
  let b := d.current_batch_.get d.current_split_
  ({ d with current_batch_ := d.current_batch_.set d.current_split_ (b + 1) },
   { split := d.current_split_
     positions := List.range' (b * bs) bs
     samples := (d.GetSplit.drop (b * bs)).take bs })

/-! ## The synchronous program `src/skin_lesion_classification.cpp` -/

/-- The counted loop `for (int j = 0; j < n; ++j) { d.LoadBatch(x, y); ... }` run for its
`n` iterations (the body never writes `j`); the loads are returned in call order. -/
def loadLoop : Nat → DLDataset → DLDataset × List Load
  | 0, d => (d, [])
  | n + 1, d =>
    let r := d.LoadBatch
    let rest := loadLoop n r.1
    (rest.1, r.2 :: rest.2)

/-- The `LoadBatch` calls of one epoch, training pass and evaluation pass apart. -/
structure EpochLog where
  training : List Load
  evaluation : List Load
deriving DecidableEq, Repr

/-- One iteration of the epoch loop of the synchronous `main` (lines 87-133): select the
training split, shuffle it, reset the counters, run the training loop with bound
`num_batches`; then select the test split and run the evaluation loop with bound
`num_batches_validation`.  A bound that is not positive gives no iteration. -/
def syncEpoch (shuffle : List Int → List Int) (num_batches num_batches_validation : Int)
    (d : DLDataset) : DLDataset × EpochLog :=
  let d1 := d.SetSplit .training
  let d2 := { d1 with split_ := d1.split_.set d1.current_split_ (shuffle d1.GetSplit) }
  let d3 := d2.ResetAllBatches
  let t := loadLoop num_batches.toNat d3
  let d4 := t.1.SetSplit .test
  let e := loadLoop num_batches_validation.toNat d4
  (e.1, { training := t.2, evaluation := e.2 })

/-- The epoch loop `for (int i = 0; i < epochs; ++i)`, started at epoch `i` with `n`
epochs to go; `shuffle i` is the permutation `std::shuffle` applies in epoch `i`. -/
def syncEpochs (shuffle : Nat → List Int → List Int)
    (num_batches num_batches_validation : Int) : Nat → Nat → DLDataset → List EpochLog
  | _, 0, _ => []
  | i, n + 1, d =>
    let r := syncEpoch (shuffle i) num_batches num_batches_validation d
    r.2 :: syncEpochs shuffle num_batches num_batches_validation (i + 1) n r.1

/-- What the synchronous `main` computes that the properties speak about. -/
structure SyncRun where
  num_batches : Int
  num_batches_validation : Int
  epochs : List EpochLog
deriving DecidableEq, Repr

/-- The synchronous `main` (lines 59-164), for a batch size, an epoch count and the three
splits of the dataset file: `num_samples` is read before any `SetSplit`, then
`num_samples_validation` after `SetSplit(validation)`; both counts are `int` quotients.
The program fixes `batch_size = 12` and `epochs = 50`; split lengths are taken to fit an
`int`, as the sample indices a split stores do. -/
def syncMain (batch_size : Int) (epochs : Nat) (training validation test : List Int)
    (shuffle : Nat → List Int → List Int) : SyncRun :=
  let d := DLDataset.mk0 batch_size training validation test
  let num_samples : Int := d.GetSplit.length
  let num_batches := Int.tdiv num_samples batch_size
  let d1 := d.SetSplit .validation
  let num_samples_validation : Int := d1.GetSplit.length
  let num_batches_validation := Int.tdiv num_samples_validation batch_size
  { num_batches := num_batches
    num_batches_validation := num_batches_validation
    epochs := syncEpochs shuffle num_batches num_batches_validation 0 epochs d1 }

/-- All positions covered by a sequence of loads, in call order. -/
def coveredPositions (ls : List Load) : List Nat :=
  ls.flatMap (fun l => l.positions)

/-! ## The asynchronous program `cpp/skin_lesion_classification_training.cpp`:
consumer loops -/

/-- The two generators of `main`: `d_generator_t` (training) and `d_generator_v`
(validation). -/
inductive Gen where
  | t
  | v
deriving DecidableEq, Repr

/-- Identity of a batch handed over by `PopBatch`: the epoch, the generator and the number
of the `PopBatch` call within the traversal. -/
structure BatchId where
  epoch : Nat
  gen : Gen
  idx : Nat
deriving DecidableEq, Repr

/-- The tensors the loop bodies allocate or receive: `x` and `y` of a popped batch, the
network `output` for it, and, for row `k` of a batch, `result`, `target` and
`single_image`. -/
inductive Tensor where
  | x (b : BatchId)
  | y (b : BatchId)
  | output (b : BatchId)
  | result (b : BatchId) (k : Nat)
  | target (b : BatchId) (k : Nat)
  | single_image (b : BatchId) (k : Nat)
deriving DecidableEq, Repr

/-- Observable events of the consumer: calls on a generator (with the answer for `HasNext`
and `PopBatch`), reads or writes of a tensor (`use`) and `delete` of a tensor. -/
inductive Ev where
  | Start (g : Gen)
  | HasNext (g : Gen) (r : Bool)
  | Size (g : Gen)
  | PopBatch (g : Gen) (r : Bool)
  | Stop (g : Gen)
  | use (t : Tensor)
  | delete (t : Tensor)
deriving DecidableEq, Repr

/-- The answers a generator gives during one traversal: `hasNext j` to the `j`-th call of
`HasNext`, `popBatch j` to the `j`-th call of `PopBatch` (counting from 0). -/
structure Answers where
  hasNext : Nat → Bool
  popBatch : Nat → Bool

/-- Body of the training loop (lines 224-245) for the batch `b`, after `HasNext` returned
true: the `Size()` query, `PopBatch(x, y)` answering `r`, and when it succeeded
`x->div_`, `train_batch(net, {x}, {y}, indices)`, `delete x`, `delete y`. -/
def trainBody (b : BatchId) (r : Bool) : List Ev :=
  [Ev.Size .t, Ev.PopBatch .t r] ++
    (if r then
      [Ev.use (.x b), Ev.use (.x b), Ev.use (.y b), Ev.delete (.x b), Ev.delete (.y b)]
    else [])

/-- Body of the image-saving loop (lines 273-303) for row `k` of batch `b`: the two
`select` calls reading `output` and `y`, the scan over `result` and `target`, the `select`
on `x`, the work on `single_image`, and the three `delete`s. -/
def saveImageBody (b : BatchId) (k : Nat) : List Ev :=
  [Ev.use (.output b), Ev.use (.y b), Ev.use (.result b k), Ev.use (.target b k),
   Ev.use (.x b), Ev.use (.single_image b k), Ev.use (.single_image b k),
   Ev.delete (.single_image b k), Ev.delete (.result b k), Ev.delete (.target b k)]

/-- Body of the validation loop (lines 257-311) for the batch `b`, after `HasNext` returned
true: `PopBatch(x, y)` answering `r`, and when it succeeded `x->div_`, `forward`, the
metric on `y` and `output`, the image-saving loop over `k < batch_size` when `save_images`
is set, then `delete output`, `delete x`, `delete y`. -/
def validBody (save_images : Bool) (batch_size : Int) (b : BatchId) (r : Bool) : List Ev :=
  Ev.PopBatch .v r ::
    (if r then
      [Ev.use (.x b), Ev.use (.x b), Ev.use (.y b), Ev.use (.output b)] ++
      (if save_images then (List.range batch_size.toNat).flatMap (saveImageBody b) else []) ++
      [Ev.delete (.output b), Ev.delete (.x b), Ev.delete (.y b)]
    else [])

/-- The loop `for (int j = 0; g.HasNext(); ++j) body` from iteration `j` on.  Every
iteration calls `HasNext` once and `PopBatch` once, so iteration `j` receives the `j`-th
answer of each.  `fuel` bounds the number of `HasNext` calls; `none` means the loop is
still running when the fuel is spent. -/
def whileHasNext (g : Gen) (a : Answers) (body : Nat → Bool → List Ev) :
    Nat → Nat → Option (List Ev)
  | 0, _ => none
  | fuel + 1, j =>
    if a.hasNext j then
      (whileHasNext g a body fuel (j + 1)).map
        (fun rest => Ev.HasNext g true :: (body j (a.popBatch j) ++ rest))
    else some [Ev.HasNext g false]

/-- The training traversal of epoch `i` (lines 220-247): `Start`, the loop, `Stop`. -/
def trainTraversal (i : Nat) (a : Answers) (fuel : Nat) : Option (List Ev) :=
  (whileHasNext .t a (fun j r => trainBody ⟨i, .t, j⟩ r) fuel 0).map
    (fun evs => Ev.Start .t :: (evs ++ [Ev.Stop .t]))

/-- The validation traversal of epoch `i` (lines 253-313): `Start`, the loop, `Stop`. -/
def validTraversal (save_images : Bool) (batch_size : Int) (i : Nat) (a : Answers)
    (fuel : Nat) : Option (List Ev) :=
  (whileHasNext .v a (fun j r => validBody save_images batch_size ⟨i, .v, j⟩ r) fuel 0).map
    (fun evs => Ev.Start .v :: (evs ++ [Ev.Stop .v]))

/-- The generator and tensor events of epoch `i` of the asynchronous `main`: the training
traversal, then the validation traversal; `ans g` are the answers of generator `g` in this
epoch. -/
def asyncEpoch (save_images : Bool) (batch_size : Int) (i : Nat) (ans : Gen → Answers)
    (fuel : Nat) : Option (List Ev) :=
  (trainTraversal i (ans .t) fuel).bind fun tr =>
    (validTraversal save_images batch_size i (ans .v) fuel).map fun va => tr ++ va

/-- The epoch loop `for (int i = 0; i < s.epochs; ++i)` from epoch `i` with `n` epochs to
go; `ans i g` are the answers of generator `g` in epoch `i`. -/
def asyncEpochs (save_images : Bool) (batch_size : Int) (ans : Nat → Gen → Answers)
    (fuel : Nat) : Nat → Nat → Option (List Ev)
  | _, 0 => some []
  | i, n + 1 =>
    (asyncEpoch save_images batch_size i (ans i) fuel).bind fun e =>
      (asyncEpochs save_images batch_size ans fuel (i + 1) n).map fun rest => e ++ rest

/-- Whether an event is a call on the generator `g`. -/
def Ev.onGen (g : Gen) : Ev → Bool
  | .Start h => h = g
  | .HasNext h _ => h = g
  | .Size h => h = g
  | .PopBatch h _ => h = g
  | .Stop h => h = g
  | _ => false

/-- Whether an event is a call on one of the generators. -/
def Ev.isCall (e : Ev) : Bool :=
  e.onGen .t || e.onGen .v

/-- The calls one traversal with `n` loop iterations makes on generator `g`, written out:
`Start`, then per iteration `HasNext` answering true, the `Size` query when `size` is set,
and one `PopBatch`; then `HasNext` answering false and `Stop`. -/
def protocolTrace (g : Gen) (size : Bool) (a : Answers) (n : Nat) : List Ev :=
  Ev.Start g ::
    ((List.range n).flatMap (fun j =>
        Ev.HasNext g true :: ((if size then [Ev.Size g] else []) ++ [Ev.PopBatch g (a.popBatch j)]))
      ++ [Ev.HasNext g false, Ev.Stop g])

/-- Whether tensor `t` is deleted exactly once in `evs` and not used after that. -/
def releasedOnceAfterUse (evs : List Ev) (t : Tensor) : Bool :=
  evs.count (Ev.delete t) == 1 &&
    !((evs.dropWhile (fun e => e != Ev.delete t)).contains (Ev.use t))

/-- Whether an event deletes the features container `x` of some batch. -/
def Ev.isDeleteX : Ev → Bool
  | .delete (.x _) => true
  | _ => false

/-- Whether an event deletes the labels container `y` of some batch. -/
def Ev.isDeleteY : Ev → Bool
  | .delete (.y _) => true
  | _ => false

/-- Whether an event is a `PopBatch` call that returned true. -/
def Ev.isPopTrue : Ev → Bool
  | .PopBatch _ true => true
  | _ => false

/-- The events of the loop `for (...; g.HasNext(); ++j) body` when it runs `n` iterations,
written out. -/
def loopTrace (g : Gen) (a : Answers) (body : Nat → Bool → List Ev) (j n : Nat) : List Ev :=
  (List.range' j n).flatMap (fun k => Ev.HasNext g true :: body k (a.popBatch k)) ++
    [Ev.HasNext g false]

/-- The events of epoch `i` when the training loop runs `nt` and the validation loop `nv`
iterations, written out. -/
def epochTrace (save_images : Bool) (batch_size : Int) (i : Nat) (ans : Gen → Answers)
    (nt nv : Nat) : List Ev :=
  (Ev.Start .t :: (loopTrace .t (ans .t) (fun j r => trainBody ⟨i, .t, j⟩ r) 0 nt ++ [Ev.Stop .t]))
    ++ (Ev.Start .v ::
      (loopTrace .v (ans .v) (fun j r => validBody save_images batch_size ⟨i, .v, j⟩ r) 0 nv
        ++ [Ev.Stop .v]))

/-- A fuel that suffices for `epochs` epochs whose loops run `n i g` iterations. -/
def enoughFuel (n : Nat → Gen → Nat) : Nat → Nat
  | 0 => 1
  | e + 1 => enoughFuel n e + n e .t + n e .v + 1

/-- Whether batch `b` was handed over by a successful `PopBatch` in a run of `epochs`
epochs whose loops run `n i g` iterations. -/
def poppedIn (epochs : Nat) (ans : Nat → Gen → Answers) (n : Nat → Gen → Nat)
    (b : BatchId) : Bool :=
  decide (b.epoch < epochs) && decide (b.idx < n b.epoch b.gen) &&
    (ans b.epoch b.gen).popBatch b.idx

/-! ## `get_weights` (lines 89-97) -/

/-- The hard-coded class frequencies `dataset_freq` of the skin-lesion dataset. -/
def dataset_freq : List ℚ := [4522, 12875, 3323, 867, 2624, 239, 253, 628]

/-- Rounding of a rational to the nearest integer, ties to the even one (the IEEE 754
default rounding direction). -/
def roundHalfEven (y : ℚ) : ℤ :=
  let n := ⌊y⌋
  let r := y - n
  if r < 1 / 2 then n else if 1 / 2 < r then n + 1 else if n % 2 = 0 then n else n + 1

/-- The binary32 (`float`) value nearest to a rational `x`: with `e` the binary exponent of
`|x|` (not below -126, where the subnormal range starts) the result is the multiple of
`2^(e-23)` nearest to `x`, ties to even.  Values beyond the largest `float` do not occur in
what follows and get no special treatment. -/
def roundF32 (x : ℚ) : ℚ :=
  if x = 0 then 0
  else
    let e : ℤ := max (Int.log 2 |x|) (-126)
    let q : ℚ := (2 : ℚ) ^ (e - 23)
    if x < 0 then -((roundHalfEven (|x| / q) : ℤ) : ℚ) * q
    else ((roundHalfEven (|x| / q) : ℤ) : ℚ) * q

/-- The `float` sum `a + b`. -/
def f32add (a b : ℚ) : ℚ := roundF32 (a + b)

/-- The `float` product `a * b`. -/
def f32mul (a b : ℚ) : ℚ := roundF32 (a * b)

/-- The `float` quotient `a / b`. -/
def f32div (a b : ℚ) : ℚ := roundF32 (a / b)

/-- The function `get_weights` in `float` arithmetic: `median` is `0.5f` times the sum of
the entries at positions `size/2 - 1` and `size/2` of `dataset_freq` as written (the vector
is not sorted first), and every entry `n` is replaced by the `float` quotient
`median / n`. -/
def get_weights : List ℚ :=
  let median : ℚ :=
    f32mul (1 / 2) (f32add (dataset_freq.getD (dataset_freq.length / 2 - 1) 0)
      (dataset_freq.getD (dataset_freq.length / 2) 0))
  dataset_freq.map (fun n => f32div median n)

/-- The statistical median of a list of even length, in the words of the property: sort the
values and take the mean of the two middle ones. -/
def statisticalMedian (f : List ℚ) : ℚ :=
  let s := f.insertionSort (fun a b => a ≤ b)
  (s.getD (s.length / 2 - 1) 0 + s.getD (s.length / 2) 0) / 2

/-! ## `LWCategoricalCrossEntropy::value` (lines 50-82) -/

/-- A two-dimensional EDDL tensor on the CPU as `value` reads it: `shape[0]`, `shape[1]`,
`stride[0]` and the buffer `ptr`, here a total map from offsets to values (the reads of
tensor buffers are not what the property is about). -/
structure Tensor2 where
  shape0 : Nat
  shape1 : Nat
  stride0 : Nat
  ptr : Nat → ℚ

/-- The message of the `std::runtime_error` thrown by `value`. -/
def weightsShapeError : String := "weights must have same shape of pred->shape[1]"

/-- The outcome given to an access `weights_[i]` with `i` outside `0 .. size-1` (undefined
behaviour of `std::vector::operator[]`). -/
def weightsIndexError : String := "weights_[i] read outside the vector"

/-- The checked form of the access `weights_[i]`. -/
def weightAt (weights_ : List ℚ) (i : Nat) : Except String ℚ :=
  match weights_[i]? with
  | some w => .ok w
  | none => .error weightsIndexError

/-- The inner loop `for (int i = 0; i < y_true->shape[1]; i++)` (lines 72-75) with `k`
iterations to go from index `i`, accumulating into `bi_sum`; `log` stands for `std::log`. -/
def crossEntropyRow (log : ℚ → ℚ) (eps : ℚ) (weights_ : List ℚ) (y_true y_pred : Tensor2)
    (step_i : Nat) : Nat → Nat → ℚ → Except String ℚ
  | 0, _, bi_sum => .ok bi_sum
  | k + 1, i, bi_sum =>
    match weightAt weights_ i with
    | .error e => .error e
    | .ok w =>
      crossEntropyRow log eps weights_ y_true y_pred step_i k (i + 1)
        (bi_sum + w * (y_true.ptr (step_i + i) * log (y_pred.ptr (step_i + i) + eps)))

/-- The outer loop `for (int bi = 0; bi < y_true->shape[0]; bi++)` (lines 67-77) with `k`
iterations to go from row `bi`, accumulating into `sum`. -/
def crossEntropyRows (log : ℚ → ℚ) (eps : ℚ) (weights_ : List ℚ) (y_true y_pred : Tensor2) :
    Nat → Nat → ℚ → Except String ℚ
  | 0, _, sum => .ok sum
  | k + 1, bi, sum =>
    match crossEntropyRow log eps weights_ y_true y_pred (bi * y_true.stride0)
        y_true.shape1 0 0 with
    | .error e => .error e
    | .ok bi_sum => crossEntropyRows log eps weights_ y_true y_pred k (bi + 1) (sum + bi_sum)

/-- The method `LWCategoricalCrossEntropy::value(T, Y)` of a loss built with `weights_`:
the size check with its `throw`, the two loops, and the negated sum. -/
def LWCategoricalCrossEntropy.value (log : ℚ → ℚ) (eps : ℚ) (weights_ : List ℚ)
    (T Y : Tensor2) : Except String ℚ :=
  let y_true := T
  let y_pred := Y
  if weights_.length ≠ y_true.shape1 then
    .error weightsShapeError
  else
    match crossEntropyRows log eps weights_ y_true y_pred y_true.shape0 0 0 with
    | .error e => .error e
    | .ok sum => .ok (-sum)

/-! ## The class scan of the image-saving code (lines 277-289) -/

/-- The value `std::numeric_limits<float>::min()`, the smallest positive normal `float`. -/
def FLT_MIN : ℚ := 1 / 2 ^ 126

/-- The variables the scan updates: `max`, `classe` and `gt_class`. -/
structure ScanState where
  max : ℚ
  classe : Int
  gt_class : Int
deriving DecidableEq, Repr

/-- The loop `for (unsigned c = 0; c < result->size; ++c)` with `k` iterations to go from
index `c`: a score strictly above `max` becomes the new `max` and sets `classe = c`; a
target entry equal to 1 sets `gt_class = c`.  The rows are the buffers `result->ptr` and
`target->ptr`.  The `int` variables receive the `unsigned` index unchanged, which is what
C++ does for indices below `2^31`. -/
def scanFrom (result target : List ℚ) : Nat → Nat → ScanState → ScanState
  | 0, _, st => st
  | k + 1, c, st =>
    let st1 : ScanState :=
      if result.getD c 0 > st.max then { st with max := result.getD c 0, classe := c } else st
    let st2 : ScanState :=
      if target.getD c 0 = 1 then { st1 with gt_class := c } else st1
    scanFrom result target k (c + 1) st2

/-- The scan of one row as the program runs it: `max` starts at `FLT_MIN`, `classe` and
`gt_class` at -1, and `c` runs over `0 .. result->size - 1`. -/
def scanRow (result target : List ℚ) : ScanState :=
  scanFrom result target result.length 0 { max := FLT_MIN, classe := -1, gt_class := -1 }

/-- Invariant of the scan for `max` and `classe` once the indices below `c` are done:
either nothing exceeded the threshold yet, or `classe` is the first index below `c` that
holds the largest score seen, which is `max`. -/
def ClasseInv (result : List ℚ) (c : Nat) (st : ScanState) : Prop :=
  (st.classe = -1 ∧ st.max = FLT_MIN ∧ ∀ j, j < c → result.getD j 0 ≤ FLT_MIN) ∨
  (∃ m : Nat, st.classe = (m : Int) ∧ m < c ∧ st.max = result.getD m 0 ∧ FLT_MIN < st.max ∧
    (∀ j, j < c → result.getD j 0 ≤ st.max) ∧ (∀ j, j < m → result.getD j 0 < st.max))

/-- Invariant of the scan for `gt_class` once the indices below `c` are done: it is the
last index below `c` whose target entry is 1, or -1 when there is none. -/
def GtInv (target : List ℚ) (c : Nat) (st : ScanState) : Prop :=
  (st.gt_class = -1 ∧ ∀ j, j < c → target.getD j 0 ≠ 1) ∨
  (∃ m : Nat, st.gt_class = (m : Int) ∧ m < c ∧ target.getD m 0 = 1 ∧
    ∀ j, m < j → j < c → target.getD j 0 ≠ 1)

/-! ## The batch pipeline behind `DataGenerator`

The class `DataGenerator` (header `data_generator/data_generator.h`) is not among the
sources; the definitions of this section follow the specification of the pipeline
(generator controller, worker pool, bounded completion queue, batch assembler).  Threads
are interleaved at the grain of the atomic actions the specification names: claiming a
slot, publishing a finished batch, popping a batch. -/

/-- Modelled from the spec: the configuration surface of the pipeline (`batch_size`,
`worker_count`, `queue_capacity`), absent from the sources with `DataGenerator`. -/
structure PipeConfig where
  batch_size : Nat
  worker_count : Nat
  queue_capacity : Nat
deriving DecidableEq, Repr

/-- Modelled from the spec: the state of a running `DataGenerator` (absent from the
sources): `total_slots`, the next-slot counter, for each worker the slot it has claimed and
not yet published, the bounded FIFO of completed batches, and the batches the consumer has
popped so far, in order of delivery.  A batch is identified by its slot. -/
structure Pipeline where
  total_slots : Nat
  next_slot : Nat
  workers : List (Option Nat)
  queue : List Nat
  delivered : List Nat
deriving DecidableEq, Repr

/-- Modelled from the spec: `DataGenerator::Start()` (absent from the sources) on a split
of length `L`: `total_slots = floor(L / batch_size)`, the next-slot counter is reset to 0,
the worker pool is spawned idle and nothing is queued or delivered. -/
def Pipeline.Start (cfg : PipeConfig) (L : Nat) : Pipeline :=
  { total_slots := L / cfg.batch_size
    next_slot := 0
    workers := List.replicate cfg.worker_count none
    queue := []
    delivered := [] }

/-- Modelled from the spec: `DataGenerator::HasNext()` (absent from the sources): true
while slots remain to be produced (unclaimed, or claimed and not yet published) or are
already queued; false once every batch has been produced and consumed. -/
def Pipeline.HasNext (p : Pipeline) : Bool :=
  decide (p.next_slot < p.total_slots) || p.workers.any Option.isSome || !p.queue.isEmpty

/-- Modelled from the spec: the batch assembler (absent from the sources with
`DataGenerator`): slot `s` covers the positions `s*batch_size .. s*batch_size+batch_size-1`
of the split snapshot. -/
def slotPositions (cfg : PipeConfig) (s : Nat) : List Nat :=
  List.range' (s * cfg.batch_size) cfg.batch_size

/-- Modelled from the spec: the atomic actions of a traversal of the pipeline behind
`DataGenerator` (absent from the sources): worker `w` claims the next slot, worker `w`
publishes the batch it assembled, the consumer pops a batch. -/
inductive PipeAction where
  | claim (w : Nat)
  | publish (w : Nat)
  | pop
deriving DecidableEq, Repr

/-- Modelled from the spec: one atomic action of the pipeline behind `DataGenerator`
(absent from the sources), `none` when the action cannot happen in this state.
A worker that holds no slot claims the next unclaimed one while one is left (one atomic
increment of the counter); a worker that holds a slot publishes its batch at the back of
the queue unless the queue is at capacity (then it stays suspended); `PopBatch`, called by
the consumer loop while `HasNext()` is true, takes the batch at the front of the queue and
hands it over, and waits while the queue is empty. -/
def Pipeline.step (cfg : PipeConfig) (a : PipeAction) (p : Pipeline) : Option Pipeline :=
  match a with
  | .claim w =>
    if p.next_slot < p.total_slots then
      match p.workers[w]? with
      | some none =>
        some { p with next_slot := p.next_slot + 1
                      workers := p.workers.set w (some p.next_slot) }
      | _ => none
    else none
  | .publish w =>
    match p.workers[w]? with
    | some (some s) =>
      if p.queue.length < cfg.queue_capacity then
        some { p with workers := p.workers.set w none, queue := p.queue ++ [s] }
      else none
    | _ => none
  | .pop =>
    match p.queue with
    | s :: q => some { p with queue := q, delivered := p.delivered ++ [s] }
    | [] => none

/-- Modelled from the spec: a schedule (one interleaving of the workers and the consumer
of the absent `DataGenerator`) run from a state; `none` when some action of the schedule
cannot happen. -/
def Pipeline.run (cfg : PipeConfig) : List PipeAction → Pipeline → Option Pipeline
  | [], p => some p
  | a :: as, p => (Pipeline.step cfg a p).bind (Pipeline.run cfg as)

/-- The slots claimed by workers and not yet published. -/
def Pipeline.inFlight (p : Pipeline) : List Nat :=
  p.workers.filterMap id

/-- The work left in a state: three units for a slot still unclaimed, two for a claimed
slot not yet published, one for a queued batch. -/
def Pipeline.workLeft (p : Pipeline) : Nat :=
  3 * (p.total_slots - p.next_slot) + 2 * p.inFlight.length + p.queue.length

/-- The sample positions covered by the batches delivered so far, in delivery order. -/
def Pipeline.coveredByDelivered (cfg : PipeConfig) (p : Pipeline) : List Nat :=
  p.delivered.flatMap (slotPositions cfg)

/-- Invariant of a traversal: the worker pool keeps its size, the counter stays within
`total_slots`, the queue within its capacity, and the slots claimed so far are exactly
those in flight, queued or delivered, each once. -/
def PipeInv (cfg : PipeConfig) (p : Pipeline) : Prop :=
  p.workers.length = cfg.worker_count ∧ p.next_slot ≤ p.total_slots ∧
    p.queue.length ≤ cfg.queue_capacity ∧
    (p.inFlight ++ p.queue ++ p.delivered).Perm (List.range p.next_slot)

/-! ## The validation loop of the asynchronous program (lines 256-315) -/

/-- One image written by `ImWrite` in the validation loop: the sample whose file name the
path is built from (`d.GetSplit()[n]`), the sample whose pixels row `k` of the batch holds,
and the `classe` and `gt_class` found by the scan of that row. -/
structure SavedImage where
  filename_of : Int
  pixels_of : Int
  classe : Int
  gt_class : Int
deriving DecidableEq, Repr

/-- The variables the validation loop carries from batch to batch: the counter `n`, the
vector `total_metric` and the images written so far. -/
structure ValidationState where
  n : Nat
  total_metric : List ℚ
  saved : List SavedImage
deriving DecidableEq, Repr

/-- Modelled from the spec: the content of the batch of slot `s` (the batch assembler is
part of the absent `DataGenerator`): row `k` holds the sample at position
`s*batch_size + k` of the split. -/
def slotSamples (batch_size : Nat) (split : List Int) (s : Nat) : List Int :=
  (split.drop (s * batch_size)).take batch_size

/-- The image-saving loop `for (int k = 0; k < s.batch_size; ++k, ++n)` (lines 272-304)
over the rows of a popped batch, from counter value `n`: row `k` is written under the file
name of sample `d.GetSplit()[n]`, in the directory of `classe`, with `gt_class` in the
name.  `net` gives the output row of the network for a sample, `label` its target row. -/
def saveRows (split : List Int) (net label : Int → List ℚ) : List Int → Nat → List SavedImage
  | [], _ => []
  | sample :: rest, n =>
    { filename_of := split.getD n 0
      pixels_of := sample
      classe := (scanRow (net sample) (label sample)).classe
      gt_class := (scanRow (net sample) (label sample)).gt_class } ::
      saveRows split net label rest (n + 1)

/-- The body of the validation loop for a popped batch holding the samples `rows`
(lines 261-310): the metric value `ca` of the batch is pushed on `total_metric`, and when
`save_images` is set its rows are written and `n` advances by the number of rows.
`metric_value` stands for `metric_fn->value(y, output)`. -/
def validationStep (save_images : Bool) (split : List Int) (net label : Int → List ℚ)
    (metric_value : List (List ℚ) → List (List ℚ) → ℚ) (st : ValidationState)
    (rows : List Int) : ValidationState :=
  let ca := metric_value (rows.map label) (rows.map net)
  if save_images then
    { n := st.n + rows.length
      total_metric := st.total_metric ++ [ca]
      saved := st.saved ++ saveRows split net label rows st.n }
  else
    { st with total_metric := st.total_metric ++ [ca] }

/-- The validation traversal over the batches in the order the generator delivers them
(`delivered` lists their slots), starting with `n = 0` and an empty `total_metric`. -/
def validationPass (save_images : Bool) (batch_size : Nat) (split : List Int)
    (net label : Int → List ℚ) (metric_value : List (List ℚ) → List (List ℚ) → ℚ)
    (delivered : List Nat) : ValidationState :=
  delivered.foldl
    (fun st s => validationStep save_images split net label metric_value st
      (slotSamples batch_size split s))
    { n := 0, total_metric := [], saved := [] }

/-- The epoch mean `mean_metric` (line 315): the sum of `total_metric` divided by
`total_metric.size() * batch_size`. -/
def mean_metric (batch_size : Nat) (st : ValidationState) : ℚ :=
  st.total_metric.sum / ((st.total_metric.length : ℚ) * (batch_size : ℚ))

/-- A network that scores sample 10 as class 0 and any other sample as class 1. -/
def exampleNet (sample : Int) : List ℚ :=
  if sample = 10 then [1, 0] else [0, 1]

/-- A count of the rows on which output and target agree, standing for the accuracy
metric. -/
def exampleMetric (y output : List (List ℚ)) : ℚ :=
  ((y.zip output).filter (fun r => r.1 = r.2)).length

/-- Whether an event is one of the lifecycle calls `Start`, `HasNext`, `PopBatch`, `Stop`
(the `Size` query is an observation and not one of them). -/
def Ev.isLifecycle : Ev → Bool
  | .Start _ => true
  | .HasNext _ _ => true
  | .PopBatch _ _ => true
  | .Stop _ => true
  | _ => false

/-! ## Theorems: the synchronous program -/

theorem PerSplit.get_set_self {α : Type} (p : PerSplit α) (s : SplitType) (v : α) :
    (p.set s v).get s = v := by
  cases s <;> rfl

theorem loadLoop_batch_size (n : Nat) (d : DLDataset) :
    (loadLoop n d).1.batch_size_ = d.batch_size_ ∧ (loadLoop n d).1.split_ = d.split_ ∧
      (loadLoop n d).1.current_split_ = d.current_split_ := by
  induction n generalizing d with
  | zero => simp [loadLoop]
  | succ n ih =>
    simp only [loadLoop]
    obtain ⟨h1, h2, h3⟩ := ih d.LoadBatch.1
    exact ⟨h1, h2, h3⟩

theorem loadLoop_length (n : Nat) (d : DLDataset) : (loadLoop n d).2.length = n := by
  induction n generalizing d with
  | zero => rfl
  | succ n ih => simp [loadLoop, ih]

theorem loadLoop_positions (n : Nat) (d : DLDataset) :
    coveredPositions (loadLoop n d).2 =
      List.range' (d.current_batch_.get d.current_split_ * d.batch_size_.toNat)
        (n * d.batch_size_.toNat) := by
  induction n generalizing d with
  | zero => simp [loadLoop, coveredPositions]
  | succ n ih =>
    have h := ih d.LoadBatch.1
    simp only [coveredPositions] at h ⊢
    simp only [loadLoop, List.flatMap_cons, h]
    simp only [DLDataset.LoadBatch, PerSplit.get_set_self]
    have e : (d.current_batch_.get d.current_split_ + 1) * d.batch_size_.toNat =
        d.current_batch_.get d.current_split_ * d.batch_size_.toNat + d.batch_size_.toNat := by
      ring
    rw [e, List.range'_append_1]
    congr 1
    ring

theorem loadLoop_each (n : Nat) (d : DLDataset) (l : Load) (hl : l ∈ (loadLoop n d).2) :
    l.split = d.current_split_ ∧
      ∃ k, k < n ∧ l.positions =
          List.range' ((d.current_batch_.get d.current_split_ + k) * d.batch_size_.toNat)
            d.batch_size_.toNat ∧
        l.samples = (d.GetSplit.drop
          ((d.current_batch_.get d.current_split_ + k) * d.batch_size_.toNat)).take
            d.batch_size_.toNat := by
  induction n generalizing d with
  | zero => simp [loadLoop] at hl
  | succ n ih =>
    simp only [loadLoop, List.mem_cons] at hl
    rcases hl with h | h
    · subst h
      exact ⟨rfl, 0, Nat.succ_pos n, by simp [DLDataset.LoadBatch], by simp [DLDataset.LoadBatch]⟩
    · obtain ⟨h1, k, hk, h2, h3⟩ := ih _ h
      refine ⟨h1, k + 1, Nat.succ_lt_succ hk, ?_, ?_⟩
      · rw [h2]
        simp only [DLDataset.LoadBatch, PerSplit.get_set_self]
        congr 1
        ring
      · rw [h3]
        simp only [DLDataset.LoadBatch, PerSplit.get_set_self, DLDataset.GetSplit]
        congr 2
        ring

theorem syncEpoch_training (sh : List Int → List Int) (nb nbv : Int) (d : DLDataset) (L : Nat)
    (hlen : (sh d.split_.training).length = L) (hnb : nb.toNat * d.batch_size_.toNat ≤ L) :
    (syncEpoch sh nb nbv d).1.batch_size_ = d.batch_size_ ∧
    (syncEpoch sh nb nbv d).1.split_.training.length = L ∧
    (syncEpoch sh nb nbv d).2.training.length = nb.toNat ∧
    coveredPositions (syncEpoch sh nb nbv d).2.training =
      List.range (nb.toNat * d.batch_size_.toNat) ∧
    ∀ l ∈ (syncEpoch sh nb nbv d).2.training,
      l.split = .training ∧ l.samples.length = d.batch_size_.toNat := by
  refine ⟨?_, ?_, ?_, ?_, ?_⟩
  · simp only [syncEpoch]
    rw [(loadLoop_batch_size _ _).1]
    simp only [DLDataset.SetSplit]
    rw [(loadLoop_batch_size _ _).1]
    rfl
  · simp only [syncEpoch]
    rw [(loadLoop_batch_size _ _).2.1]
    simp only [DLDataset.SetSplit]
    rw [(loadLoop_batch_size _ _).2.1]
    simpa [DLDataset.ResetAllBatches, DLDataset.GetSplit, PerSplit.set, PerSplit.get] using hlen
  · simp only [syncEpoch]
    exact loadLoop_length _ _
  · simp only [syncEpoch]
    rw [loadLoop_positions]
    simp [DLDataset.ResetAllBatches, DLDataset.SetSplit, PerSplit.get, List.range_eq_range']
  · intro l hl
    simp only [syncEpoch] at hl
    obtain ⟨h1, k, hk, -, h3⟩ := loadLoop_each _ _ l hl
    refine ⟨h1, ?_⟩
    rw [h3]
    simp only [DLDataset.ResetAllBatches, DLDataset.SetSplit, PerSplit.get, PerSplit.set,
      DLDataset.GetSplit, List.length_take, List.length_drop, hlen, Nat.zero_add]
    have : (k + 1) * d.batch_size_.toNat ≤ nb.toNat * d.batch_size_.toNat :=
      Nat.mul_le_mul_right _ hk
    have e : (k + 1) * d.batch_size_.toNat = k * d.batch_size_.toNat + d.batch_size_.toNat := by
      ring
    omega

theorem syncEpoch_evaluation (sh : List Int → List Int) (nb nbv : Int) (d : DLDataset) :
    (syncEpoch sh nb nbv d).2.evaluation.length = nbv.toNat ∧
    ∀ l ∈ (syncEpoch sh nb nbv d).2.evaluation, l.split = .test := by
  refine ⟨?_, ?_⟩
  · simp only [syncEpoch]
    exact loadLoop_length _ _
  · intro l hl
    simp only [syncEpoch] at hl
    exact (loadLoop_each _ _ l hl).1

theorem syncEpochs_length (shuffle : Nat → List Int → List Int) (nb nbv : Int) (i n : Nat)
    (d : DLDataset) : (syncEpochs shuffle nb nbv i n d).length = n := by
  induction n generalizing i d with
  | zero => rfl
  | succ n ih => simp [syncEpochs, ih]

theorem syncEpochs_training (shuffle : Nat → List Int → List Int) (nb nbv : Int) (L : Nat)
    (hsh : ∀ i l, (shuffle i l).length = l.length) (i n : Nat) (d : DLDataset)
    (hlen : d.split_.training.length = L) (hnb : nb.toNat * d.batch_size_.toNat ≤ L) :
    ∀ e ∈ syncEpochs shuffle nb nbv i n d,
      e.training.length = nb.toNat ∧
      coveredPositions e.training = List.range (nb.toNat * d.batch_size_.toNat) ∧
      ∀ l ∈ e.training, l.split = .training ∧ l.samples.length = d.batch_size_.toNat := by
  induction n generalizing i d with
  | zero => simp [syncEpochs]
  | succ n ih =>
    intro e he
    have hl : (shuffle i d.split_.training).length = L := by rw [hsh, hlen]
    obtain ⟨h1, h2, h3, h4, h5⟩ := syncEpoch_training (shuffle i) nb nbv d L hl hnb
    simp only [syncEpochs, List.mem_cons] at he
    rcases he with rfl | he
    · exact ⟨h3, h4, h5⟩
    · have := ih (i + 1) _ h2 (by rw [h1]; exact hnb) e he
      rw [h1] at this
      exact this


/-- Claim C2. For a split of length `L ≥ 0` and a batch size `B > 0` the computed
`num_batches = num_samples / batch_size` is `floor(L/B)`, that is
`num_batches*B ≤ L < (num_batches+1)*B`; in every epoch the synchronous training loop makes
exactly `num_batches` `LoadBatch` calls, all on the training split and each reading `B`
samples, covering the positions `0 .. num_batches*B - 1`, so that the trailing `L mod B`
positions are never loaded. -/
theorem sync_training_loads_floor_batches (B : Int) (epochs : Nat) (tr va te : List Int)
    (shuffle : Nat → List Int → List Int) (hB : 0 < B)
    (hsh : ∀ i l, (shuffle i l).length = l.length) :
    (syncMain B epochs tr va te shuffle).num_batches = ⌊((tr.length : Int) : ℚ) / (B : ℚ)⌋ ∧
    (syncMain B epochs tr va te shuffle).num_batches * B ≤ tr.length ∧
    (tr.length : Int) < ((syncMain B epochs tr va te shuffle).num_batches + 1) * B ∧
    (syncMain B epochs tr va te shuffle).epochs.length = epochs ∧
    ∀ e ∈ (syncMain B epochs tr va te shuffle).epochs,
      (e.training.length : Int) = (syncMain B epochs tr va te shuffle).num_batches ∧
      (∀ l ∈ e.training, l.split = .training ∧ (l.samples.length : Int) = B) ∧
      coveredPositions e.training =
        List.range ((syncMain B epochs tr va te shuffle).num_batches * B).toNat ∧
      (tr.length : Int) - ((coveredPositions e.training).length : Int) = (tr.length : Int) % B := by
  obtain ⟨b, rfl⟩ := Int.eq_ofNat_of_zero_le hB.le
  have hb : 0 < b := by exact_mod_cast hB
  have hnb : (syncMain b epochs tr va te shuffle).num_batches = ((tr.length / b : Nat) : Int) := by
    simp only [syncMain, DLDataset.mk0, DLDataset.GetSplit, PerSplit.get]
    rw [Int.tdiv_eq_ediv (Int.ofNat_nonneg _) (Int.ofNat_nonneg _)]
    norm_cast
  have hmul : tr.length / b * b ≤ tr.length := Nat.div_mul_le_self _ _
  refine ⟨?_, ?_, ?_, ?_, ?_⟩
  · rw [hnb, Int.cast_natCast b, Rat.floor_intCast_div_natCast]
    norm_cast
  · rw [hnb]
    exact_mod_cast hmul
  · rw [hnb]
    have := @Nat.lt_div_mul_add tr.length b hb
    have e : (tr.length / b + 1) * b = tr.length / b * b + b := by ring
    exact_mod_cast (by omega : tr.length < (tr.length / b + 1) * b)
  · simp only [syncMain]
    exact syncEpochs_length _ _ _ _ _ _
  · intro e he
    have key := syncEpochs_training shuffle (Int.tdiv (tr.length : Int) (b : Int))
      (Int.tdiv (va.length : Int) (b : Int)) tr.length hsh 0 epochs
      ((DLDataset.mk0 b tr va te).SetSplit .validation) rfl
      (by
        rw [Int.tdiv_eq_ediv (Int.ofNat_nonneg _) (Int.ofNat_nonneg _)]
        simpa [DLDataset.SetSplit, DLDataset.mk0] using hmul) e he
    have hq : (Int.tdiv (tr.length : Int) (b : Int)).toNat = tr.length / b := by
      rw [Int.tdiv_eq_ediv (Int.ofNat_nonneg _) (Int.ofNat_nonneg _)]
      norm_cast
    rw [hq] at key
    simp only [DLDataset.SetSplit, DLDataset.mk0, Int.toNat_ofNat] at key
    obtain ⟨k1, k2, k3⟩ := key
    rw [hnb]
    refine ⟨by rw [k1], ?_, ?_, ?_⟩
    · intro l hl
      exact ⟨(k3 l hl).1, by rw [(k3 l hl).2]⟩
    · rw [k2]
      norm_cast
    · rw [k2, List.length_range]
      have := Nat.div_add_mod tr.length b
      have e2 : tr.length / b * b = b * (tr.length / b) := Nat.mul_comm _ _
      norm_cast
      omega

/-- Claim C2 evaluated on the batch size 12 of the program, a training split of
29 samples, two epochs and list reversal as the shuffle. -/
theorem sync_training_loads_floor_batches_witness :
    (0 : Int) < 12 ∧
    (syncMain 12 2 ((List.range 29).map Int.ofNat) [] [] (fun _ l => l.reverse)).num_batches
      = ⌊(((List.range 29).map Int.ofNat).length : ℚ) / ((12 : Int) : ℚ)⌋ :=
  ⟨by decide,
   by simpa using (sync_training_loads_floor_batches 12 2 ((List.range 29).map Int.ofNat) [] []
      (fun _ l => l.reverse) (by decide) (fun _ l => List.length_reverse l)).1⟩
/-- Claim C3. On a dataset whose validation split has 24 samples and whose test split has 36,
with the program's batch size 12, the evaluation pass of the epoch reads the test split
(the one selected right before the loop) and loads 2 batches, the quotient of the
validation length, while the floor of the length of the split it reads is 3. -/
theorem sync_evaluation_bound_from_other_split :
    (syncMain 12 1 [] ((List.range' 100 24).map Int.ofNat) ((List.range' 200 36).map Int.ofNat)
        (fun _ l => l)).epochs.map
      (fun e => e.evaluation.map (fun l => (l.split, l.positions.head?, l.samples.head?)))
      = [[(SplitType.test, some 0, some 200), (SplitType.test, some 12, some 212)]] ∧
    ⌊((((List.range' 200 36).map Int.ofNat).length : Int) : ℚ) / ((12 : Int) : ℚ)⌋ = 3 := by
  refine ⟨by decide, ?_⟩
  rw [show ((((List.range' 200 36).map Int.ofNat).length : Int) : ℚ) / ((12 : Int) : ℚ) = 3 by
    simp; norm_num]
  exact Int.floor_natCast 3 |>.trans rfl

/-! ## Theorems: the consumer loops of the asynchronous program -/

theorem whileHasNext_run (g : Gen) (a : Answers) (body : Nat → Bool → List Ev) (n : Nat)
    (hn : a.hasNext n = false) (hlt : ∀ k, k < n → a.hasNext k = true) :
    ∀ (fuel j : Nat), j ≤ n → n - j < fuel →
      whileHasNext g a body fuel j = some (loopTrace g a body j (n - j)) := by
  intro fuel
  induction fuel with
  | zero => intro j _ h; omega
  | succ fuel ih =>
    intro j hj hf
    rcases Nat.eq_or_lt_of_le hj with h | h
    · subst h
      simp [whileHasNext, hn, loopTrace]
    · have e : n - j = (n - (j + 1)) + 1 := by omega
      simp only [whileHasNext, hlt j h, if_true]
      rw [ih (j + 1) h (by omega), e]
      simp [loopTrace, List.range'_succ]

theorem whileHasNext_never (g : Gen) (a : Answers) (body : Nat → Bool → List Ev)
    (h : ∀ k, a.hasNext k = true) : ∀ (fuel j : Nat), whileHasNext g a body fuel j = none := by
  intro fuel
  induction fuel with
  | zero => intro j; rfl
  | succ fuel ih => intro j; simp [whileHasNext, h j, ih (j + 1)]

theorem asyncEpoch_run (save_images : Bool) (batch_size : Int) (i : Nat) (ans : Gen → Answers)
    (n : Gen → Nat) (hn : ∀ g, (ans g).hasNext (n g) = false)
    (hlt : ∀ g k, k < n g → (ans g).hasNext k = true) (fuel : Nat) (hf : ∀ g, n g < fuel) :
    asyncEpoch save_images batch_size i ans fuel =
      some (epochTrace save_images batch_size i ans (n .t) (n .v)) := by
  have ht := whileHasNext_run .t (ans .t) (fun j r => trainBody ⟨i, .t, j⟩ r) (n .t) (hn .t)
    (hlt .t) fuel 0 (Nat.zero_le _) (by simpa using hf .t)
  have hv := whileHasNext_run .v (ans .v)
    (fun j r => validBody save_images batch_size ⟨i, .v, j⟩ r) (n .v) (hn .v)
    (hlt .v) fuel 0 (Nat.zero_le _) (by simpa using hf .v)
  simp only [Nat.sub_zero] at ht hv
  simp [asyncEpoch, trainTraversal, validTraversal, ht, hv, epochTrace]

theorem enoughFuel_mono (n : Nat → Gen → Nat) (e : Nat) :
    ∀ i, i < e → ∀ g, n i g < enoughFuel n e := by
  induction e with
  | zero => intro i h; omega
  | succ e ih =>
    intro i h g
    rcases Nat.eq_or_lt_of_le (Nat.le_of_lt_succ h) with h1 | h1
    · subst h1
      cases g <;> simp only [enoughFuel] <;> omega
    · have := ih i h1 g
      simp only [enoughFuel]
      omega

theorem asyncEpochs_run (save_images : Bool) (batch_size : Int) (ans : Nat → Gen → Answers)
    (n : Nat → Gen → Nat) (hn : ∀ i g, (ans i g).hasNext (n i g) = false)
    (hlt : ∀ i g k, k < n i g → (ans i g).hasNext k = true) (fuel : Nat) :
    ∀ (cnt start : Nat), (∀ i, i < start + cnt → ∀ g, n i g < fuel) →
      asyncEpochs save_images batch_size ans fuel start cnt =
        some ((List.range' start cnt).flatMap
          (fun i => epochTrace save_images batch_size i (ans i) (n i .t) (n i .v))) := by
  intro cnt
  induction cnt with
  | zero => intro start _; simp [asyncEpochs]
  | succ cnt ih =>
    intro start hf
    have h1 := asyncEpoch_run save_images batch_size start (ans start) (n start) (hn start)
      (hlt start) fuel (hf start (by omega))
    have h2 := ih (start + 1) (fun i hi g => hf i (by omega) g)
    simp [asyncEpochs, h1, h2, List.range'_succ]
theorem filter_loopTrace (p : Ev → Bool) (g : Gen) (a : Answers) (body : Nat → Bool → List Ev)
    (calls : Bool → List Ev) (hb : ∀ k r, (body k r).filter p = calls r)
    (hg : p (Ev.HasNext g true) = true) (hg2 : p (Ev.HasNext g false) = true)
    (j n : Nat) :
    (loopTrace g a body j n).filter p =
      (List.range' j n).flatMap (fun k => Ev.HasNext g true :: calls (a.popBatch k)) ++
        [Ev.HasNext g false] := by
  simp only [loopTrace, List.filter_append, List.filter_flatMap, List.filter_cons, hg, hg2, hb,
    if_true, List.filter_nil]

theorem filter_isCall_trainBody (b : BatchId) (r : Bool) :
    (trainBody b r).filter Ev.isCall = [Ev.Size .t, Ev.PopBatch .t r] := by
  cases r <;> simp [trainBody, Ev.isCall, Ev.onGen]

theorem filter_isCall_validBody (save_images : Bool) (batch_size : Int) (b : BatchId)
    (r : Bool) :
    (validBody save_images batch_size b r).filter Ev.isCall = [Ev.PopBatch .v r] := by
  cases r <;> cases save_images <;>
    simp [validBody, Ev.isCall, Ev.onGen, List.filter_flatMap, saveImageBody]

theorem filter_isLifecycle_trainBody (b : BatchId) (r : Bool) :
    (trainBody b r).filter Ev.isLifecycle = [Ev.PopBatch .t r] := by
  cases r <;> simp [trainBody, Ev.isLifecycle]

theorem filter_isLifecycle_validBody (save_images : Bool) (batch_size : Int) (b : BatchId)
    (r : Bool) :
    (validBody save_images batch_size b r).filter Ev.isLifecycle = [Ev.PopBatch .v r] := by
  cases r <;> cases save_images <;>
    simp [validBody, Ev.isLifecycle, List.filter_flatMap, saveImageBody]

theorem filter_isCall_epochTrace (save_images : Bool) (batch_size : Int) (i : Nat)
    (ans : Gen → Answers) (nt nv : Nat) :
    (epochTrace save_images batch_size i ans nt nv).filter Ev.isCall =
      protocolTrace .t true (ans .t) nt ++ protocolTrace .v false (ans .v) nv := by
  simp only [epochTrace, List.filter_append, List.filter_cons]
  rw [filter_loopTrace Ev.isCall .t (ans .t) _ (fun r => [Ev.Size .t, Ev.PopBatch .t r])
      (fun k r => filter_isCall_trainBody _ r) rfl rfl,
    filter_loopTrace Ev.isCall .v (ans .v) _ (fun r => [Ev.PopBatch .v r])
      (fun k r => filter_isCall_validBody _ _ _ r) rfl rfl]
  simp [protocolTrace, Ev.isCall, Ev.onGen, List.range_eq_range']

theorem filter_isLifecycle_epochTrace (save_images : Bool) (batch_size : Int) (i : Nat)
    (ans : Gen → Answers) (nt nv : Nat) :
    (epochTrace save_images batch_size i ans nt nv).filter Ev.isLifecycle =
      protocolTrace .t false (ans .t) nt ++ protocolTrace .v false (ans .v) nv := by
  simp only [epochTrace, List.filter_append, List.filter_cons]
  rw [filter_loopTrace Ev.isLifecycle .t (ans .t) _ (fun r => [Ev.PopBatch .t r])
      (fun k r => filter_isLifecycle_trainBody _ r) rfl rfl,
    filter_loopTrace Ev.isLifecycle .v (ans .v) _ (fun r => [Ev.PopBatch .v r])
      (fun k r => filter_isLifecycle_validBody _ _ _ r) rfl rfl]
  simp [protocolTrace, Ev.isLifecycle, List.range_eq_range']

/-- Claim C4, amended. For every epoch and both traversals, and for every sequence of
answers of the generators in which `HasNext` eventually answers false (true `n i g` times
and then false; `PopBatch` answers anything), the run of the epoch loop ends and the calls
the consumer makes on the generators are, epoch after epoch, the training traversal
followed by the validation traversal, each of the shape `Start`, then per iteration one
`HasNext` (true), in the training loop one `Size` query, and one `PopBatch`, then `HasNext`
(false), `Stop`.  Without the `Size` queries these are the lifecycle calls in the shape
`Start`, (`HasNext` true, `PopBatch`)*, `HasNext` false, `Stop`. -/
theorem async_consumer_call_protocol (save_images : Bool) (batch_size : Int) (epochs : Nat)
    (ans : Nat → Gen → Answers) (n : Nat → Gen → Nat)
    (hn : ∀ i g, (ans i g).hasNext (n i g) = false)
    (hlt : ∀ i g k, k < n i g → (ans i g).hasNext k = true) :
    ∃ fuel, ∀ fuel', fuel ≤ fuel' →
      ∃ tr, asyncEpochs save_images batch_size ans fuel' 0 epochs = some tr ∧
        tr.filter Ev.isCall =
          (List.range epochs).flatMap (fun i =>
            protocolTrace .t true (ans i .t) (n i .t) ++
              protocolTrace .v false (ans i .v) (n i .v)) ∧
        tr.filter Ev.isLifecycle =
          (List.range epochs).flatMap (fun i =>
            protocolTrace .t false (ans i .t) (n i .t) ++
              protocolTrace .v false (ans i .v) (n i .v)) := by
  refine ⟨enoughFuel n epochs, fun fuel' hf => ⟨_, asyncEpochs_run save_images batch_size ans n
    hn hlt fuel' epochs 0 (fun i hi g => ?_), ?_, ?_⟩⟩
  · exact lt_of_lt_of_le (enoughFuel_mono n epochs i (by omega) g) hf
  · simp only [List.filter_flatMap, filter_isCall_epochTrace, List.range_eq_range']
  · simp only [List.filter_flatMap, filter_isLifecycle_epochTrace, List.range_eq_range']

/-- Claim C4, amended, on one epoch in which, for either generator, `HasNext` is true twice
and then false and `PopBatch` succeeds on its first call only. -/
theorem async_consumer_call_protocol_witness :
    ∃ fuel, ∀ fuel', fuel ≤ fuel' →
      ∃ tr, asyncEpochs true 8 (fun _ _ => ⟨fun j => decide (j < 2), fun j => decide (j = 0)⟩)
          fuel' 0 1 = some tr ∧
        tr.filter Ev.isCall =
          [Ev.Start .t, Ev.HasNext .t true, Ev.Size .t, Ev.PopBatch .t true,
           Ev.HasNext .t true, Ev.Size .t, Ev.PopBatch .t false, Ev.HasNext .t false,
           Ev.Stop .t,
           Ev.Start .v, Ev.HasNext .v true, Ev.PopBatch .v true,
           Ev.HasNext .v true, Ev.PopBatch .v false, Ev.HasNext .v false, Ev.Stop .v] ∧
        tr.filter Ev.isLifecycle =
          [Ev.Start .t, Ev.HasNext .t true, Ev.PopBatch .t true,
           Ev.HasNext .t true, Ev.PopBatch .t false, Ev.HasNext .t false, Ev.Stop .t,
           Ev.Start .v, Ev.HasNext .v true, Ev.PopBatch .v true,
           Ev.HasNext .v true, Ev.PopBatch .v false, Ev.HasNext .v false, Ev.Stop .v] :=
  async_consumer_call_protocol true 8 1
    (fun _ _ => ⟨fun j => decide (j < 2), fun j => decide (j = 0)⟩) (fun _ _ => 2)
    (fun _ _ => rfl) (fun _ _ k hk => by simpa using hk)

/-- Claim C4 as stated fails, in two ways.  When the training generator answers true to
every `HasNext`, the training loop of the first epoch is still running after any number of
calls, so no `HasNext` answering false and no `Stop` follow.  And when `HasNext` answers
true twice and then false, the calls on the training generator are `Start`, `HasNext`,
`Size`, `PopBatch`, `HasNext`, `Size`, `PopBatch`, `HasNext`, `Stop`: each iteration holds
a `Size` call that the claimed trace does not have. -/
theorem async_consumer_claimed_trace_fails :
    (¬ ∃ fuel, (asyncEpochs false 8 (fun _ _ => ⟨fun _ => true, fun _ => true⟩) fuel 0
      1).isSome = true) ∧
    (asyncEpochs false 8 (fun _ _ => ⟨fun j => decide (j < 2), fun _ => true⟩) 3 0 1).map
        (fun tr => tr.filter (Ev.onGen .t)) =
      some [Ev.Start .t, Ev.HasNext .t true, Ev.Size .t, Ev.PopBatch .t true,
        Ev.HasNext .t true, Ev.Size .t, Ev.PopBatch .t true, Ev.HasNext .t false,
        Ev.Stop .t] ∧
    (asyncEpochs false 8 (fun _ _ => ⟨fun j => decide (j < 2), fun _ => true⟩) 3 0 1).map
        (fun tr => tr.filter (Ev.onGen .t)) ≠
      some (protocolTrace .t false ⟨fun j => decide (j < 2), fun _ => true⟩ 2) := by
  refine ⟨?_, by decide, by decide⟩
  rintro ⟨fuel, h⟩
  simp [asyncEpochs, asyncEpoch, trainTraversal, whileHasNext_never] at h

theorem count_flatMap_unique {ι β : Type} [DecidableEq ι] [DecidableEq β] (l : List ι)
    (hl : l.Nodup) (f : ι → List β) (x : β) (i0 : ι)
    (h : ∀ i ∈ l, i ≠ i0 → x ∉ f i) :
    List.count x (l.flatMap f) = if i0 ∈ l then List.count x (f i0) else 0 := by
  induction l with
  | nil => simp
  | cons a l ih =>
    rw [List.flatMap_cons, List.count_append]
    have hnd := List.nodup_cons.mp hl
    have ih2 := ih hnd.2 (fun i hi hne => h i (List.mem_cons_of_mem _ hi) hne)
    by_cases ha : a = i0
    · subst ha
      simp [hnd.1] at ih2 ⊢
      exact ih2
    · have : List.count x (f a) = 0 := List.count_eq_zero.mpr (h a (List.mem_cons_self _ _) ha)
      rw [this, ih2]
      have : (i0 ∈ a :: l) ↔ i0 ∈ l := by
        simp [List.mem_cons, Ne.symm ha]
      simp [this]

theorem trainBody_count_x (b b' : BatchId) (r : Bool) :
    List.count (Ev.delete (.x b)) (trainBody b' r) = if b' = b ∧ r = true then 1 else 0 := by
  cases r <;> by_cases h : b' = b <;> simp [trainBody, List.count_cons, h]

theorem trainBody_count_y (b b' : BatchId) (r : Bool) :
    List.count (Ev.delete (.y b)) (trainBody b' r) = if b' = b ∧ r = true then 1 else 0 := by
  cases r <;> by_cases h : b' = b <;> simp [trainBody, List.count_cons, h]

theorem saveImage_count_x (b b' : BatchId) (m : Nat) :
    List.count (Ev.delete (.x b)) ((List.range m).flatMap (saveImageBody b')) = 0 := by
  rw [List.count_eq_zero]
  simp [List.mem_flatMap, saveImageBody]

theorem saveImage_count_y (b b' : BatchId) (m : Nat) :
    List.count (Ev.delete (.y b)) ((List.range m).flatMap (saveImageBody b')) = 0 := by
  rw [List.count_eq_zero]
  simp [List.mem_flatMap, saveImageBody]

theorem validBody_count_x (s : Bool) (bs : Int) (b b' : BatchId) (r : Bool) :
    List.count (Ev.delete (.x b)) (validBody s bs b' r) = if b' = b ∧ r = true then 1 else 0 := by
  cases r <;> cases s <;> by_cases h : b' = b <;>
    simp [validBody, List.count_cons, List.count_append, saveImage_count_x, h]

theorem validBody_count_y (s : Bool) (bs : Int) (b b' : BatchId) (r : Bool) :
    List.count (Ev.delete (.y b)) (validBody s bs b' r) = if b' = b ∧ r = true then 1 else 0 := by
  cases r <;> cases s <;> by_cases h : b' = b <;>
    simp [validBody, List.count_cons, List.count_append, saveImage_count_y, h]
theorem loopTrace_count_delete (g : Gen) (a : Answers) (i : Nat) (body : BatchId → Bool → List Ev)
    (t : Tensor) (b : BatchId)
    (hc : ∀ b' r, List.count (Ev.delete t) (body b' r) = if b' = b ∧ r = true then 1 else 0)
    (n : Nat) :
    List.count (Ev.delete t) (loopTrace g a (fun j r => body ⟨i, g, j⟩ r) 0 n) =
      if i = b.epoch ∧ g = b.gen ∧ b.idx < n ∧ a.popBatch b.idx = true then 1 else 0 := by
  simp only [loopTrace, List.count_append]
  rw [count_flatMap_unique (List.range' 0 n) (List.nodup_range' 0 n) _ _ b.idx]
  · have hb : (⟨i, g, b.idx⟩ : BatchId) = b ↔ i = b.epoch ∧ g = b.gen := by
      cases b; simp
    by_cases h1 : b.idx < n
    · by_cases h2 : i = b.epoch ∧ g = b.gen
      · simp [List.mem_range', h1, hc, hb, h2, List.count_cons]
      · have hcount : List.count (Ev.delete t) (body ⟨i, g, b.idx⟩ (a.popBatch b.idx)) = 0 := by
          rw [hc, if_neg]
          rintro ⟨hh, -⟩
          exact h2 (hb.mp hh)
        have hneg : ¬ (i = b.epoch ∧ g = b.gen ∧ b.idx < n ∧ a.popBatch b.idx = true) :=
          fun h => h2 ⟨h.1, h.2.1⟩
        simp only [if_neg hneg]
        simp [List.mem_range', h1, hcount, List.count_cons]
    · simp [List.mem_range', h1, List.count_cons]
  · intro k _ hk hmem
    rcases List.mem_cons.mp hmem with h | h
    · exact Ev.noConfusion h
    · have := hc ⟨i, g, k⟩ (a.popBatch k)
      have hne : ¬ ((⟨i, g, k⟩ : BatchId) = b ∧ a.popBatch k = true) := by
        rintro ⟨rfl, -⟩
        exact hk rfl
      rw [if_neg hne] at this
      exact (List.count_eq_zero.mp this) h
theorem epochTrace_count_delete (s : Bool) (bs : Int) (i : Nat) (ans : Gen → Answers)
    (nt nv : Nat) (t : Tensor) (b : BatchId)
    (hct : ∀ b' r, List.count (Ev.delete t) (trainBody b' r) = if b' = b ∧ r = true then 1 else 0)
    (hcv : ∀ b' r, List.count (Ev.delete t) (validBody s bs b' r) =
      if b' = b ∧ r = true then 1 else 0) :
    List.count (Ev.delete t) (epochTrace s bs i ans nt nv) =
      if i = b.epoch ∧ b.idx < (match b.gen with | .t => nt | .v => nv) ∧
        (ans b.gen).popBatch b.idx = true then 1 else 0 := by
  have h1 := loopTrace_count_delete .t (ans .t) i trainBody t b hct nt
  have h2 := loopTrace_count_delete .v (ans .v) i (validBody s bs) t b hcv nv
  simp only [epochTrace, List.count_append, List.count_cons, h1, h2]
  rcases b with ⟨be, bg, bi⟩
  cases bg <;> simp

theorem run_count_delete (s : Bool) (bs : Int) (epochs : Nat) (ans : Nat → Gen → Answers)
    (n : Nat → Gen → Nat) (t : Tensor) (b : BatchId)
    (hct : ∀ b' r, List.count (Ev.delete t) (trainBody b' r) = if b' = b ∧ r = true then 1 else 0)
    (hcv : ∀ b' r, List.count (Ev.delete t) (validBody s bs b' r) =
      if b' = b ∧ r = true then 1 else 0) :
    List.count (Ev.delete t) ((List.range' 0 epochs).flatMap
        (fun i => epochTrace s bs i (ans i) (n i .t) (n i .v))) =
      if poppedIn epochs ans n b = true then 1 else 0 := by
  rw [count_flatMap_unique (List.range' 0 epochs) (List.nodup_range' 0 epochs) _ _ b.epoch]
  · rw [epochTrace_count_delete s bs b.epoch (ans b.epoch) _ _ t b hct hcv]
    rcases b with ⟨be, bg, bi⟩
    cases bg <;> by_cases h : be < epochs <;> simp [poppedIn, List.mem_range', h]
  · intro i _ hi
    rw [← List.count_eq_zero, epochTrace_count_delete s bs i (ans i) _ _ t b hct hcv]
    simp [hi]

theorem countP_loopTrace (p : Ev → Bool) (g : Gen) (a : Answers) (body : Nat → Bool → List Ev)
    (hb : ∀ k r, List.countP p (body k r) = if r = true then 1 else 0)
    (h1 : p (Ev.HasNext g true) = false) (h2 : p (Ev.HasNext g false) = false) (n : Nat) :
    ∀ j, List.countP p (loopTrace g a body j n) =
      List.countP (fun k => a.popBatch k) (List.range' j n) := by
  induction n with
  | zero => intro j; simp [loopTrace, h2]
  | succ n ih =>
    intro j
    have := ih (j + 1)
    simp only [loopTrace, List.countP_append, List.range'_succ, List.flatMap_cons,
      List.countP_cons, h1, h2, hb] at this ⊢
    simp only [List.countP_nil, Nat.add_zero, Bool.false_eq_true, if_false, Nat.zero_add]
      at this ⊢
    omega

theorem countP_epochTrace (p : Ev → Bool) (s : Bool) (bs : Int) (i : Nat) (ans : Gen → Answers)
    (nt nv : Nat)
    (hbt : ∀ b r, List.countP p (trainBody b r) = if r = true then 1 else 0)
    (hbv : ∀ b r, List.countP p (validBody s bs b r) = if r = true then 1 else 0)
    (h1 : ∀ g r, p (Ev.HasNext g r) = false) (h2 : ∀ g, p (Ev.Start g) = false)
    (h3 : ∀ g, p (Ev.Stop g) = false) :
    List.countP p (epochTrace s bs i ans nt nv) =
      List.countP (fun k => (ans .t).popBatch k) (List.range' 0 nt) +
        List.countP (fun k => (ans .v).popBatch k) (List.range' 0 nv) := by
  simp only [epochTrace, List.countP_append, List.countP_cons, h2, h3,
    countP_loopTrace p .t (ans .t) _ (fun k r => hbt _ r) (h1 _ _) (h1 _ _) nt 0,
    countP_loopTrace p .v (ans .v) _ (fun k r => hbv _ r) (h1 _ _) (h1 _ _) nv 0]
  simp

theorem countP_saveImage (p : Ev → Bool) (b : BatchId) (m : Nat)
    (h : ∀ k, List.countP p (saveImageBody b k) = 0) :
    List.countP p ((List.range m).flatMap (saveImageBody b)) = 0 := by
  rw [List.countP_flatMap]
  apply List.sum_eq_zero
  intro x hx
  obtain ⟨k, -, rfl⟩ := List.mem_map.mp hx
  exact h k

theorem countP_bodies (s : Bool) (bs : Int) (b : BatchId) (r : Bool) :
    (List.countP Ev.isDeleteX (trainBody b r) = if r = true then 1 else 0) ∧
    (List.countP Ev.isDeleteY (trainBody b r) = if r = true then 1 else 0) ∧
    (List.countP Ev.isPopTrue (trainBody b r) = if r = true then 1 else 0) ∧
    (List.countP Ev.isDeleteX (validBody s bs b r) = if r = true then 1 else 0) ∧
    (List.countP Ev.isDeleteY (validBody s bs b r) = if r = true then 1 else 0) ∧
    (List.countP Ev.isPopTrue (validBody s bs b r) = if r = true then 1 else 0) := by
  have hx := countP_saveImage Ev.isDeleteX b bs.toNat (fun k => by simp [saveImageBody, Ev.isDeleteX])
  have hy := countP_saveImage Ev.isDeleteY b bs.toNat (fun k => by simp [saveImageBody, Ev.isDeleteY])
  have hp := countP_saveImage Ev.isPopTrue b bs.toNat (fun k => by simp [saveImageBody, Ev.isPopTrue])
  cases r <;> cases s <;>
    simp [trainBody, validBody, List.countP_cons, List.countP_append, Ev.isDeleteX, Ev.isDeleteY,
      Ev.isPopTrue, hx, hy, hp]
theorem trainBody_released (b : BatchId) :
    releasedOnceAfterUse (trainBody b true) (.x b) = true ∧
      releasedOnceAfterUse (trainBody b true) (.y b) = true := by
  constructor <;> simp [releasedOnceAfterUse, trainBody, List.count_cons, List.dropWhile_cons]

theorem validBody_released (s : Bool) (bs : Int) (b : BatchId) :
    releasedOnceAfterUse (validBody s bs b true) (.x b) = true ∧
      releasedOnceAfterUse (validBody s bs b true) (.y b) = true := by
  have hx := validBody_count_x s bs b b true
  have hy := validBody_count_y s bs b b true
  simp only [true_and, if_true] at hx hy
  have hdx : ∀ a ∈ (List.range bs.toNat).flatMap (saveImageBody b),
      (a != Ev.delete (.x b)) = true := by
    intro a ha
    obtain ⟨k, -, hk⟩ := List.mem_flatMap.mp ha
    simp only [saveImageBody, List.mem_cons, List.mem_singleton, List.not_mem_nil, or_false] at hk
    rcases hk with h | h | h | h | h | h | h | h | h | h <;> subst h <;> simp
  have hdy : ∀ a ∈ (List.range bs.toNat).flatMap (saveImageBody b),
      (a != Ev.delete (.y b)) = true := by
    intro a ha
    obtain ⟨k, -, hk⟩ := List.mem_flatMap.mp ha
    simp only [saveImageBody, List.mem_cons, List.mem_singleton, List.not_mem_nil, or_false] at hk
    rcases hk with h | h | h | h | h | h | h | h | h | h <;> subst h <;> simp
  refine ⟨?_, ?_⟩
  · simp only [releasedOnceAfterUse, hx, beq_self_eq_true, Bool.true_and]
    cases s
    · simp [validBody, List.dropWhile_cons]
    · simp [validBody, List.dropWhile_cons, List.dropWhile_append_of_pos hdx]
  · simp only [releasedOnceAfterUse, hy, beq_self_eq_true, Bool.true_and]
    cases s
    · simp [validBody, List.dropWhile_cons]
    · simp [validBody, List.dropWhile_cons, List.dropWhile_append_of_pos hdy]

theorem bodies_false_release_nothing (s : Bool) (bs : Int) (b : BatchId) (t : Tensor) :
    Ev.delete t ∉ trainBody b false ∧ Ev.delete t ∉ validBody s bs b false := by
  simp [trainBody, validBody]
theorem countP_traversal (p : Ev → Bool) (g : Gen) (a : Answers) (body : Nat → Bool → List Ev)
    (hb : ∀ k r, List.countP p (body k r) = if r = true then 1 else 0)
    (h1 : ∀ r, p (Ev.HasNext g r) = false) (h2 : p (Ev.Start g) = false)
    (h3 : p (Ev.Stop g) = false) (n : Nat) :
    List.countP p (Ev.Start g :: (loopTrace g a body 0 n ++ [Ev.Stop g])) =
      List.countP (fun k => a.popBatch k) (List.range n) := by
  simp [List.countP_cons, List.countP_append, h2, h3,
    countP_loopTrace p g a body hb (h1 _) (h1 _) n 0, List.range_eq_range']

/-- Claim C5. In both consumer loops an iteration whose `PopBatch` returned true deletes the
features container `x` and the labels container `y` of that batch exactly once, inside the
iteration and with no use of the container after the `delete`; an iteration whose
`PopBatch` returned false deletes nothing.  Over a whole training or validation traversal
(one in which `HasNext` answers false at call `n i g`) the numbers of deleted `x` and of
deleted `y` both equal the number of successful `PopBatch` calls, and over the whole run
each batch's `x` and `y` are deleted once if the batch was popped and never otherwise. -/
theorem async_popped_batches_released_once (save_images : Bool) (batch_size : Int)
    (epochs : Nat) (ans : Nat → Gen → Answers) (n : Nat → Gen → Nat)
    (hn : ∀ i g, (ans i g).hasNext (n i g) = false)
    (hlt : ∀ i g k, k < n i g → (ans i g).hasNext k = true) :
    (∀ b, releasedOnceAfterUse (trainBody b true) (.x b) = true ∧
        releasedOnceAfterUse (trainBody b true) (.y b) = true ∧
        releasedOnceAfterUse (validBody save_images batch_size b true) (.x b) = true ∧
        releasedOnceAfterUse (validBody save_images batch_size b true) (.y b) = true) ∧
    (∀ b t, Ev.delete t ∉ trainBody b false ∧
        Ev.delete t ∉ validBody save_images batch_size b false) ∧
    (∀ i fuel, n i .t < fuel → ∃ tt, trainTraversal i (ans i .t) fuel = some tt ∧
        tt.countP Ev.isDeleteX = tt.countP Ev.isPopTrue ∧
        tt.countP Ev.isDeleteY = tt.countP Ev.isPopTrue ∧
        tt.countP Ev.isPopTrue = (List.range (n i .t)).countP (fun k => (ans i .t).popBatch k)) ∧
    (∀ i fuel, n i .v < fuel →
      ∃ tv, validTraversal save_images batch_size i (ans i .v) fuel = some tv ∧
        tv.countP Ev.isDeleteX = tv.countP Ev.isPopTrue ∧
        tv.countP Ev.isDeleteY = tv.countP Ev.isPopTrue ∧
        tv.countP Ev.isPopTrue = (List.range (n i .v)).countP (fun k => (ans i .v).popBatch k)) ∧
    ∃ fuel, ∀ fuel', fuel ≤ fuel' →
      ∃ tr, asyncEpochs save_images batch_size ans fuel' 0 epochs = some tr ∧
        ∀ b, tr.count (Ev.delete (.x b)) = (if poppedIn epochs ans n b = true then 1 else 0) ∧
          tr.count (Ev.delete (.y b)) = (if poppedIn epochs ans n b = true then 1 else 0) := by
  refine ⟨fun b => ⟨(trainBody_released b).1, (trainBody_released b).2,
      (validBody_released _ _ b).1, (validBody_released _ _ b).2⟩,
    fun b t => bodies_false_release_nothing _ _ b t, ?_, ?_, ?_⟩
  · intro i fuel hf
    have h := whileHasNext_run .t (ans i .t) (fun j r => trainBody ⟨i, .t, j⟩ r) (n i .t)
      (hn i .t) (hlt i .t) fuel 0 (Nat.zero_le _) (by simpa using hf)
    refine ⟨_, by simp only [trainTraversal, h, Option.map_some']; rfl, ?_⟩
    simp only [Nat.sub_zero]
    have cb := fun (j : Nat) (r : Bool) => countP_bodies save_images batch_size ⟨i, .t, j⟩ r
    rw [countP_traversal Ev.isDeleteX .t _ _ (fun k r => (cb k r).1) (fun _ => rfl) rfl rfl,
      countP_traversal Ev.isDeleteY .t _ _ (fun k r => (cb k r).2.1) (fun _ => rfl) rfl rfl,
      countP_traversal Ev.isPopTrue .t _ _ (fun k r => (cb k r).2.2.1) (fun _ => rfl) rfl rfl]
    exact ⟨rfl, rfl, rfl⟩
  · intro i fuel hf
    have h := whileHasNext_run .v (ans i .v)
      (fun j r => validBody save_images batch_size ⟨i, .v, j⟩ r) (n i .v)
      (hn i .v) (hlt i .v) fuel 0 (Nat.zero_le _) (by simpa using hf)
    refine ⟨_, by simp only [validTraversal, h, Option.map_some']; rfl, ?_⟩
    simp only [Nat.sub_zero]
    have cb := fun (j : Nat) (r : Bool) => countP_bodies save_images batch_size ⟨i, .v, j⟩ r
    rw [countP_traversal Ev.isDeleteX .v _ _ (fun k r => (cb k r).2.2.2.1) (fun _ => rfl) rfl rfl,
      countP_traversal Ev.isDeleteY .v _ _ (fun k r => (cb k r).2.2.2.2.1) (fun _ => rfl) rfl
        rfl,
      countP_traversal Ev.isPopTrue .v _ _ (fun k r => (cb k r).2.2.2.2.2) (fun _ => rfl) rfl
        rfl]
    exact ⟨rfl, rfl, rfl⟩
  · refine ⟨enoughFuel n epochs, fun fuel' hf => ⟨_, asyncEpochs_run save_images batch_size
      ans n hn hlt fuel' epochs 0 (fun i hi g => ?_), fun b => ⟨?_, ?_⟩⟩⟩
    · exact lt_of_lt_of_le (enoughFuel_mono n epochs i (by omega) g) hf
    · exact run_count_delete save_images batch_size epochs ans n (.x b) b
        (fun b' r => trainBody_count_x b b' r) (fun b' r => validBody_count_x _ _ b b' r)
    · exact run_count_delete save_images batch_size epochs ans n (.y b) b
        (fun b' r => trainBody_count_y b b' r) (fun b' r => validBody_count_y _ _ b b' r)

/-- Claim C5 on one epoch with image saving, batch size 8, where `HasNext` is
true twice and `PopBatch` succeeds on its first call only: in the validation traversal one
`x` and one `y` are deleted, for the single successful `PopBatch`. -/
theorem async_popped_batches_released_once_witness :
    ∃ tv, validTraversal true 8 0 ⟨fun j => decide (j < 2), fun j => decide (j = 0)⟩ 3 = some tv ∧
      tv.countP Ev.isDeleteX = tv.countP Ev.isPopTrue ∧
      tv.countP Ev.isDeleteY = tv.countP Ev.isPopTrue ∧
      tv.countP Ev.isPopTrue = 1 :=
  (async_popped_batches_released_once true 8 1
    (fun _ _ => ⟨fun j => decide (j < 2), fun j => decide (j = 0)⟩) (fun _ _ => 2)
    (fun _ _ => rfl) (fun _ _ k hk => by simpa using hk)).2.2.2.1 0 3 (by decide)

/-! ## Theorems: the batch pipeline -/

theorem filterMap_set_some (l : List (Option Nat)) (w s : Nat) (h : l[w]? = some none) :
    ((l.set w (some s)).filterMap id).Perm (s :: l.filterMap id) := by
  induction l generalizing w with
  | nil => simp at h
  | cons a l ih =>
    cases w with
    | zero =>
      simp only [List.getElem?_cons_zero, Option.some.injEq] at h
      subst h
      simp
    | succ w =>
      simp only [List.getElem?_cons_succ] at h
      have := ih w h
      cases a with
      | none => simpa using this
      | some x =>
        simp only [List.set_cons_succ, List.filterMap_cons, id]
        exact (List.Perm.cons x this).trans (List.Perm.swap s x _)

theorem filterMap_set_none (l : List (Option Nat)) (w s : Nat) (h : l[w]? = some (some s)) :
    (l.filterMap id).Perm (s :: (l.set w none).filterMap id) := by
  induction l generalizing w with
  | nil => simp at h
  | cons a l ih =>
    cases w with
    | zero =>
      simp only [List.getElem?_cons_zero, Option.some.injEq] at h
      subst h
      simp
    | succ w =>
      simp only [List.getElem?_cons_succ] at h
      have := ih w h
      cases a with
      | none => simpa using this
      | some x =>
        simp only [List.set_cons_succ, List.filterMap_cons, id]
        exact (List.Perm.cons x this).trans (List.Perm.swap s x _)

theorem PipeInv_Start (cfg : PipeConfig) (L : Nat) : PipeInv cfg (Pipeline.Start cfg L) := by
  refine ⟨by simp [Pipeline.Start], Nat.zero_le _, Nat.zero_le _, ?_⟩
  have : (List.replicate cfg.worker_count (none : Option Nat)).filterMap id = [] := by
    induction cfg.worker_count with
    | zero => rfl
    | succ n ih => simp [List.replicate_succ]
  simp [Pipeline.Start, Pipeline.inFlight, this]

theorem workLeft_Start (cfg : PipeConfig) (L : Nat) :
    (Pipeline.Start cfg L).workLeft = 3 * (L / cfg.batch_size) := by
  have : (List.replicate cfg.worker_count (none : Option Nat)).filterMap id = [] := by
    induction cfg.worker_count with
    | zero => rfl
    | succ n ih => simp [List.replicate_succ]
  simp [Pipeline.Start, Pipeline.workLeft, Pipeline.inFlight, this]

theorem perm_publish (A Q D : List Nat) (s : Nat) :
    (A ++ (Q ++ [s]) ++ D).Perm (s :: (A ++ Q ++ D)) := by
  rw [List.perm_iff_count]
  intro a
  simp only [List.count_cons, List.count_append, List.count_nil]
  omega

theorem perm_pop (A Q D : List Nat) (s : Nat) :
    (A ++ Q ++ (D ++ [s])).Perm (A ++ s :: Q ++ D) := by
  rw [List.perm_iff_count]
  intro a
  simp only [List.count_cons, List.count_append, List.count_nil]
  omega

theorem step_spec (cfg : PipeConfig) (a : PipeAction) (p p' : Pipeline)
    (hs : Pipeline.step cfg a p = some p') (hi : PipeInv cfg p) :
    PipeInv cfg p' ∧ p'.workLeft + 1 = p.workLeft ∧ p'.total_slots = p.total_slots := by
  obtain ⟨hw, hn, hq, hperm⟩ := hi
  cases a with
  | claim w =>
    simp only [Pipeline.step] at hs
    split at hs
    · rename_i hlt
      split at hs
      · rename_i hwn
        simp only [Option.some.injEq] at hs
        subst hs
        have hp := filterMap_set_some p.workers w p.next_slot hwn
        refine ⟨⟨by simpa using hw, hlt, hq, ?_⟩, ?_, rfl⟩
        · simp only [Pipeline.inFlight] at hperm ⊢
          rw [List.range_succ]
          have h1 : (p.next_slot :: (p.workers.filterMap id ++ p.queue ++ p.delivered)).Perm
              (List.range p.next_slot ++ [p.next_slot]) :=
            (List.Perm.cons _ hperm).trans (List.perm_append_singleton _ _).symm
          refine List.Perm.trans ?_ h1
          have := (hp.append_right p.queue).append_right p.delivered
          simpa using this
        · have hl := hp.length_eq
          simp only [Pipeline.workLeft, Pipeline.inFlight, List.length_cons] at hl ⊢
          omega
      · exact absurd hs (by simp)
    · exact absurd hs (by simp)
  | publish w =>
    simp only [Pipeline.step] at hs
    split at hs
    · rename_i s hws
      split at hs
      · rename_i hlt
        simp only [Option.some.injEq] at hs
        subst hs
        have hp := filterMap_set_none p.workers w s hws
        refine ⟨⟨by simpa using hw, hn, ?_, ?_⟩, ?_, rfl⟩
        · simp only [List.length_append, List.length_singleton]
          omega
        · simp only [Pipeline.inFlight] at hperm ⊢
          refine List.Perm.trans ?_ hperm
          have h1 := ((hp.append_right p.queue).append_right p.delivered).symm
          exact (perm_publish _ _ _ s).trans (by simpa using h1)
        · have hl := hp.length_eq
          simp only [Pipeline.workLeft, Pipeline.inFlight, List.length_cons,
            List.length_append, List.length_nil] at hl ⊢
          omega
      · exact absurd hs (by simp)
    · exact absurd hs (by simp)
  | pop =>
    simp only [Pipeline.step] at hs
    split at hs
    · rename_i s q hqe
      simp only [Option.some.injEq] at hs
      subst hs
      refine ⟨⟨hw, hn, ?_, ?_⟩, ?_, rfl⟩
      · rw [hqe] at hq
        simp only [List.length_cons] at hq
        show q.length ≤ cfg.queue_capacity
        omega
      · simp only [Pipeline.inFlight, hqe] at hperm ⊢
        exact (perm_pop _ _ _ s).trans hperm
      · simp only [Pipeline.workLeft, Pipeline.inFlight, hqe, List.length_cons]
        omega
    · exact absurd hs (by simp)
theorem run_spec (cfg : PipeConfig) :
    ∀ (acts : List PipeAction) (p p' : Pipeline), Pipeline.run cfg acts p = some p' →
      PipeInv cfg p →
      PipeInv cfg p' ∧ acts.length + p'.workLeft = p.workLeft ∧
        p'.total_slots = p.total_slots := by
  intro acts
  induction acts with
  | nil =>
    intro p p' h hi
    simp only [Pipeline.run, Option.some.injEq] at h
    subst h
    exact ⟨hi, by simp, rfl⟩
  | cons a acts ih =>
    intro p p' h hi
    simp only [Pipeline.run] at h
    cases hs : Pipeline.step cfg a p with
    | none => simp [hs] at h
    | some p1 =>
      rw [hs] at h
      obtain ⟨h1, h2, h3⟩ := step_spec cfg a p p1 hs hi
      obtain ⟨k1, k2, k3⟩ := ih p1 p' h h1
      refine ⟨k1, ?_, k3.trans h3⟩
      simp only [List.length_cons]
      omega

theorem exists_busy_worker (l : List (Option Nat)) (h : l.any Option.isSome = true) :
    ∃ (w : Nat) (s : Nat), l[w]? = some (some s) := by
  simp only [List.any_eq_true] at h
  obtain ⟨x, hx, hsome⟩ := h
  obtain ⟨s, rfl⟩ := Option.isSome_iff_exists.mp hsome
  obtain ⟨w, hw, hget⟩ := List.getElem_of_mem hx
  exact ⟨w, s, by rw [List.getElem?_eq_getElem hw, hget]⟩

theorem idle_pool_first_worker (l : List (Option Nat)) (h : l.any Option.isSome = false)
    (hl : 0 < l.length) : l[0]? = some none := by
  cases l with
  | nil => simp at hl
  | cons a l =>
    cases a with
    | none => simp
    | some x => simp at h

theorem step_enabled (cfg : PipeConfig) (p : Pipeline) (hi : PipeInv cfg p)
    (hW : 0 < cfg.worker_count) (hC : 0 < cfg.queue_capacity) (hn : p.HasNext = true) :
    ∃ a p', Pipeline.step cfg a p = some p' := by
  obtain ⟨hw, -, -, -⟩ := hi
  cases hq : p.queue with
  | cons s q =>
    have h : ∃ p', Pipeline.step cfg .pop p = some p' := by
      simp only [Pipeline.step, hq]
      exact ⟨_, rfl⟩
    exact ⟨.pop, h⟩
  | nil =>
    cases hb : p.workers.any Option.isSome with
    | true =>
      obtain ⟨w, s, hws⟩ := exists_busy_worker p.workers hb
      have h : ∃ p', Pipeline.step cfg (.publish w) p = some p' := by
        simp only [Pipeline.step, hws, hq, List.length_nil, hC, if_true]
        exact ⟨_, rfl⟩
      exact ⟨.publish w, h⟩
    | false =>
      have hlt : p.next_slot < p.total_slots := by
        simpa [Pipeline.HasNext, hb, hq] using hn
      have h0 := idle_pool_first_worker p.workers hb (by omega)
      have h : ∃ p', Pipeline.step cfg (.claim 0) p = some p' := by
        simp only [Pipeline.step, hlt, h0, if_true]
        exact ⟨_, rfl⟩
      exact ⟨.claim 0, h⟩

theorem filterMap_idle (l : List (Option Nat)) (h : l.any Option.isSome = false) :
    l.filterMap id = [] := by
  induction l with
  | nil => rfl
  | cons a l ih =>
    cases a with
    | none =>
      simp only [List.any_cons, Option.isSome_none, Bool.false_or] at h
      simpa using ih h
    | some x => simp at h

theorem flatMap_slotPositions_range (cfg : PipeConfig) (n : Nat) :
    (List.range n).flatMap (slotPositions cfg) = List.range (n * cfg.batch_size) := by
  induction n with
  | zero => simp
  | succ n ih =>
    rw [List.range_succ, List.flatMap_append, ih]
    simp only [List.flatMap_cons, List.flatMap_nil, List.append_nil, slotPositions]
    rw [List.range_eq_range', List.range_eq_range']
    have := List.range'_append_1 0 (n * cfg.batch_size) cfg.batch_size
    rw [Nat.zero_add] at this
    rw [this]
    congr 1
    ring

theorem finished_spec (cfg : PipeConfig) (p : Pipeline) (hi : PipeInv cfg p)
    (hn : p.HasNext = false) :
    p.delivered.Perm (List.range p.total_slots) ∧
      (p.coveredByDelivered cfg).Perm (List.range (p.total_slots * cfg.batch_size)) := by
  obtain ⟨-, hle, -, hperm⟩ := hi
  simp only [Pipeline.HasNext, Bool.or_eq_false_iff, decide_eq_false_iff_not,
    Bool.not_eq_false', List.isEmpty_iff] at hn
  obtain ⟨⟨h1, h2⟩, h3⟩ := hn
  have hnext : p.next_slot = p.total_slots := by omega
  have hd : p.delivered.Perm (List.range p.total_slots) := by
    simpa [Pipeline.inFlight, filterMap_idle p.workers h2, h3, hnext] using hperm
  refine ⟨hd, ?_⟩
  rw [← flatMap_slotPositions_range]
  exact hd.flatMap_right _

theorem exists_complete_run (cfg : PipeConfig) (hW : 0 < cfg.worker_count)
    (hC : 0 < cfg.queue_capacity) :
    ∀ (n : Nat) (p : Pipeline), PipeInv cfg p → p.workLeft = n →
      ∃ acts p', Pipeline.run cfg acts p = some p' ∧ p'.HasNext = false := by
  intro n
  induction n with
  | zero =>
    intro p hi hwl
    cases hn : p.HasNext with
    | false => exact ⟨[], p, rfl, hn⟩
    | true =>
      obtain ⟨a, p1, hs⟩ := step_enabled cfg p hi hW hC hn
      have := (step_spec cfg a p p1 hs hi).2.1
      omega
  | succ n ih =>
    intro p hi hwl
    cases hn : p.HasNext with
    | false => exact ⟨[], p, rfl, hn⟩
    | true =>
      obtain ⟨a, p1, hs⟩ := step_enabled cfg p hi hW hC hn
      obtain ⟨h1, h2, -⟩ := step_spec cfg a p p1 hs hi
      obtain ⟨acts, p', hr, hf⟩ := ih p1 h1 (by omega)
      exact ⟨a :: acts, p', by simp [Pipeline.run, hs, hr], hf⟩
/-- Claim C1. For a split of length `L`, batch size `B > 0`, any positive worker count and
queue capacity: a complete traversal exists; every interleaving of claims, publishes and
pops from `Start` uses up one unit of the `3 * floor(L/B)` units of work per action (so it
is finite), can always continue while `HasNext` is true, and once `HasNext` is false the
consumer has been handed exactly `floor(L/B)` batches, one for each slot, whose positions
are exactly `0 .. floor(L/B)*B - 1`, each once. -/
theorem pipeline_traversal_delivers_each_slot_once (cfg : PipeConfig) (L : Nat)
    (hB : 0 < cfg.batch_size) (hW : 0 < cfg.worker_count) (hC : 0 < cfg.queue_capacity) :
    (∃ acts p, Pipeline.run cfg acts (Pipeline.Start cfg L) = some p ∧ p.HasNext = false) ∧
    ∀ acts p, Pipeline.run cfg acts (Pipeline.Start cfg L) = some p →
      acts.length + p.workLeft = 3 * (L / cfg.batch_size) ∧
      (p.HasNext = true → ∃ a p', Pipeline.step cfg a p = some p') ∧
      (p.HasNext = false →
        p.delivered.length = L / cfg.batch_size ∧
        p.delivered.Perm (List.range (L / cfg.batch_size)) ∧
        (p.coveredByDelivered cfg).Perm
          (List.range (L / cfg.batch_size * cfg.batch_size))) := by
  have _ := hB
  refine ⟨exists_complete_run cfg hW hC _ _ (PipeInv_Start cfg L) rfl, ?_⟩
  intro acts p hr
  obtain ⟨hi, hwl, htot⟩ := run_spec cfg acts _ p hr (PipeInv_Start cfg L)
  have ht : p.total_slots = L / cfg.batch_size := htot
  refine ⟨by rw [hwl, workLeft_Start], fun hn => step_enabled cfg p hi hW hC hn, fun hn => ?_⟩
  obtain ⟨h1, h2⟩ := finished_spec cfg p hi hn
  rw [ht] at h1 h2
  exact ⟨by rw [h1.length_eq, List.length_range], h1, h2⟩

/-- Claim C1 on a split of 13 samples with batch size 5, two workers and a
queue of capacity 1, for the interleaving in which worker 1 publishes slot 1 before worker
0 publishes slot 0: the batches arrive in the order 1, 0 and cover the positions 0..9. -/
theorem pipeline_traversal_delivers_each_slot_once_witness :
    ((0 < 5 ∧ 0 < 2 ∧ 0 < 1) ∧
      Pipeline.run ⟨5, 2, 1⟩ [.claim 0, .claim 1, .publish 1, .pop, .publish 0, .pop]
        (Pipeline.Start ⟨5, 2, 1⟩ 13) = some ⟨2, 2, [none, none], [], [1, 0]⟩) ∧
    (Pipeline.coveredByDelivered ⟨5, 2, 1⟩ ⟨2, 2, [none, none], [], [1, 0]⟩).Perm
      (List.range (13 / 5 * 5)) :=
  ⟨⟨⟨by decide, by decide, by decide⟩, by decide⟩,
    (((pipeline_traversal_delivers_each_slot_once ⟨5, 2, 1⟩ 13 (by decide) (by decide)
      (by decide)).2 [.claim 0, .claim 1, .publish 1, .pop, .publish 0, .pop]
      ⟨2, 2, [none, none], [], [1, 0]⟩ (by decide)).2.2 (by decide)).2.2⟩

/-! ## Theorems: the validation loop -/

theorem scanRow_class0 : scanRow [1, 0] [1, 0] = ⟨1, 0, 0⟩ := by
  have h : (2 ^ 126 : ℚ)⁻¹ < 1 := by
    rw [inv_lt_one_iff₀]
    right
    norm_num
  simp [scanRow, scanFrom, FLT_MIN, h]

theorem scanRow_class1 : scanRow [0, 1] [0, 1] = ⟨1, 1, 1⟩ := by
  have h : (2 ^ 126 : ℚ)⁻¹ < 1 := by
    rw [inv_lt_one_iff₀]
    right
    norm_num
  have h2 : ¬ ((2 : ℚ) ^ 126 < 0) := by norm_num
  simp [scanRow, scanFrom, FLT_MIN, h, h2]

/-- Claim C6. A validation split holding the samples 10 and 11, batch size 1, image saving
on.  When the generator delivers slot 0 then slot 1, sample 10 is written under the name
of sample 10 and sample 11 under the name of sample 11.  When it delivers slot 1 then
slot 0, the pixels of sample 11 (class 1) are written under the file name of sample 10 and
the pixels of sample 10 (class 0) under the file name of sample 11: the association of
saved images with file names depends on the order of delivery, while the mean accuracy
does not.  The order 1, 0 is one the pipeline produces with two workers. -/
theorem validation_saved_names_depend_on_delivery_order :
    (validationPass true 1 [10, 11] exampleNet exampleNet exampleMetric [0, 1]).saved =
      [⟨10, 10, 0, 0⟩, ⟨11, 11, 1, 1⟩] ∧
    (validationPass true 1 [10, 11] exampleNet exampleNet exampleMetric [1, 0]).saved =
      [⟨10, 11, 1, 1⟩, ⟨11, 10, 0, 0⟩] ∧
    mean_metric 1 (validationPass true 1 [10, 11] exampleNet exampleNet exampleMetric [0, 1]) =
      mean_metric 1
        (validationPass true 1 [10, 11] exampleNet exampleNet exampleMetric [1, 0]) ∧
    (Pipeline.run ⟨1, 2, 2⟩ [.claim 0, .claim 1, .publish 1, .publish 0, .pop, .pop]
      (Pipeline.Start ⟨1, 2, 2⟩ 2)).map (fun p => (p.HasNext, p.delivered)) =
        some (false, [1, 0]) := by
  refine ⟨?_, ?_, ?_, by decide⟩
  · simp [validationPass, validationStep, slotSamples, saveRows, exampleNet, scanRow_class0,
      scanRow_class1]
  · simp [validationPass, validationStep, slotSamples, saveRows, exampleNet, scanRow_class0,
      scanRow_class1]
  · simp [validationPass, validationStep, slotSamples, mean_metric, exampleNet, exampleMetric]

/-! ## Theorems: `get_weights` -/

theorem roundHalfEven_of_near (y : ℚ) (n : ℤ) (h : |y - n| < 1 / 2) : roundHalfEven y = n := by
  rw [abs_lt] at h
  obtain ⟨h1, h2⟩ := h
  by_cases hy : (n : ℚ) ≤ y
  · have hf : ⌊y⌋ = n := by
      rw [Int.floor_eq_iff]
      constructor
      · exact hy
      · linarith
    simp only [roundHalfEven, hf]
    rw [if_pos (by linarith)]
  · have hf : ⌊y⌋ = n - 1 := by
      rw [Int.floor_eq_iff]
      push_cast
      constructor
      · linarith
      · linarith [not_le.mp hy]
    simp only [roundHalfEven, hf]
    push_cast
    rw [if_neg (by linarith), if_pos (by linarith)]
    ring

theorem roundF32_of (x : ℚ) (e n : ℤ) (hx : 0 < x) (he : -126 ≤ e) (h1 : (2 : ℚ) ^ e ≤ x)
    (h2 : x < (2 : ℚ) ^ (e + 1)) (hn : |x / (2 : ℚ) ^ (e - 23) - n| < 1 / 2) :
    roundF32 x = (n : ℚ) * (2 : ℚ) ^ (e - 23) := by
  have hlog : Int.log 2 x = e := by
    have a : e ≤ Int.log 2 x :=
      (Int.zpow_le_iff_le_log (by norm_num : 1 < 2) hx).mp (by exact_mod_cast h1)
    have b : Int.log 2 x < e + 1 :=
      (Int.lt_zpow_iff_log_lt (by norm_num : 1 < 2) hx).mp (by exact_mod_cast h2)
    omega
  simp only [roundF32, if_neg (ne_of_gt hx), abs_of_pos hx, hlog, max_eq_left he,
    if_neg (not_lt.mpr hx.le), roundHalfEven_of_near _ n hn]

theorem get_weights_median :
    f32mul (1 / 2) (f32add (dataset_freq.getD (dataset_freq.length / 2 - 1) 0)
      (dataset_freq.getD (dataset_freq.length / 2) 0)) = 3491 / 2 := by
  have hs : f32add (867 : ℚ) 2624 = 3491 := by
    rw [f32add, roundF32_of (867 + 2624) 11 (3491 * 2 ^ 12) (by norm_num) (by norm_num)
      (by norm_num) (by norm_num) (by norm_num)]
    norm_num
  have hm : f32mul (1 / 2) (3491 : ℚ) = 3491 / 2 := by
    rw [f32mul, roundF32_of (1 / 2 * 3491) 10 (3491 * 2 ^ 12) (by norm_num) (by norm_num)
      (by norm_num) (by norm_num) (by norm_num)]
    norm_num
  simp only [dataset_freq, List.length_cons, List.length_nil]
  norm_num [hs, hm]

theorem get_weights_values :
    get_weights =
      [6476035 / 16777216, 4549069 / 33554432, 8812709 / 16777216, 4222121 / 2097152,
       11160301 / 16777216, 15316229 / 2097152, 14468691 / 2097152, 5828947 / 2097152] := by
  have h0 : roundF32 (3491 / 2 / 4522) = 6476035 / 16777216 := by
    rw [roundF32_of _ (-2) 12952070 (by norm_num) (by norm_num) (by norm_num) (by norm_num)
      (by rw [abs_lt]; constructor <;> norm_num)]
    norm_num
  have h1 : roundF32 (3491 / 2 / 12875) = 4549069 / 33554432 := by
    rw [roundF32_of _ (-3) 9098138 (by norm_num) (by norm_num) (by norm_num) (by norm_num)
      (by rw [abs_lt]; constructor <;> norm_num)]
    norm_num
  have h2 : roundF32 (3491 / 2 / 3323) = 8812709 / 16777216 := by
    rw [roundF32_of _ (-1) 8812709 (by norm_num) (by norm_num) (by norm_num) (by norm_num)
      (by rw [abs_lt]; constructor <;> norm_num)]
    norm_num
  have h3 : roundF32 (3491 / 2 / 867) = 4222121 / 2097152 := by
    rw [roundF32_of _ 1 8444242 (by norm_num) (by norm_num) (by norm_num) (by norm_num)
      (by rw [abs_lt]; constructor <;> norm_num)]
    norm_num
  have h4 : roundF32 (3491 / 2 / 2624) = 11160301 / 16777216 := by
    rw [roundF32_of _ (-1) 11160301 (by norm_num) (by norm_num) (by norm_num) (by norm_num)
      (by rw [abs_lt]; constructor <;> norm_num)]
    norm_num
  have h5 : roundF32 (3491 / 2 / 239) = 15316229 / 2097152 := by
    rw [roundF32_of _ 2 15316229 (by norm_num) (by norm_num) (by norm_num) (by norm_num)
      (by rw [abs_lt]; constructor <;> norm_num)]
    norm_num
  have h6 : roundF32 (3491 / 2 / 253) = 14468691 / 2097152 := by
    rw [roundF32_of _ 2 14468691 (by norm_num) (by norm_num) (by norm_num) (by norm_num)
      (by rw [abs_lt]; constructor <;> norm_num)]
    norm_num
  have h7 : roundF32 (3491 / 2 / 628) = 5828947 / 2097152 := by
    rw [roundF32_of _ 1 11657894 (by norm_num) (by norm_num) (by norm_num) (by norm_num)
      (by rw [abs_lt]; constructor <;> norm_num)]
    norm_num
  simp only [get_weights, get_weights_median]
  simp only [dataset_freq, List.map_cons, List.map_nil, f32div, h0, h1, h2, h3, h4, h5, h6, h7]

theorem dataset_freq_sorted :
    dataset_freq.insertionSort (fun a b => a ≤ b) =
      [239, 253, 628, 867, 2624, 3323, 4522, 12875] := by
  simp [dataset_freq, List.insertionSort, List.orderedInsert]
  norm_num

theorem statisticalMedian_dataset_freq : statisticalMedian dataset_freq = 3491 / 2 := by
  simp only [statisticalMedian, dataset_freq_sorted]
  norm_num

/-- Claim C7, amended. `get_weights` returns a vector of length 8 whose entry for class `c`
is the `float` (binary32) value nearest to `median(f) / f[c]`, with `f` the eight
hard-coded frequencies and `median(f) = 3491/2` their statistical median (mean of the two
middle values of `f` sorted), which the `float` computation of the median yields exactly;
the eight returned values are listed. -/
theorem get_weights_is_rounded_median_over_freq :
    dataset_freq = [4522, 12875, 3323, 867, 2624, 239, 253, 628] ∧
    get_weights.length = 8 ∧
    f32mul (1 / 2) (f32add (dataset_freq.getD (dataset_freq.length / 2 - 1) 0)
      (dataset_freq.getD (dataset_freq.length / 2) 0)) = statisticalMedian dataset_freq ∧
    get_weights = dataset_freq.map (fun f => roundF32 (statisticalMedian dataset_freq / f)) ∧
    get_weights =
      [6476035 / 16777216, 4549069 / 33554432, 8812709 / 16777216, 4222121 / 2097152,
       11160301 / 16777216, 15316229 / 2097152, 14468691 / 2097152, 5828947 / 2097152] := by
  refine ⟨rfl, by rw [get_weights_values]; rfl, ?_, ?_, get_weights_values⟩
  · rw [get_weights_median, statisticalMedian_dataset_freq]
  · simp only [get_weights, get_weights_median, statisticalMedian_dataset_freq, f32div]

/-- Claim C7 as stated fails: the weight returned for class 0 is the `float`
`6476035/16777216`, while the exact quotient `median(f) / f[0]` is `3491/9044`. -/
theorem get_weights_differs_from_exact_quotient :
    get_weights.getD 0 0 = 6476035 / 16777216 ∧
    statisticalMedian dataset_freq / dataset_freq.getD 0 0 = 3491 / 9044 ∧
    get_weights.getD 0 0 ≠ statisticalMedian dataset_freq / dataset_freq.getD 0 0 := by
  have h1 : get_weights.getD 0 0 = 6476035 / 16777216 := by
    rw [get_weights_values]
    rfl
  have h2 : statisticalMedian dataset_freq / dataset_freq.getD 0 0 = 3491 / 9044 := by
    rw [statisticalMedian_dataset_freq]
    simp only [dataset_freq, List.getD_cons_zero]
    norm_num
  refine ⟨h1, h2, ?_⟩
  rw [h1, h2]
  norm_num

/-! ## Theorems: `LWCategoricalCrossEntropy::value` -/

theorem crossEntropyRow_ok (log : ℚ → ℚ) (eps : ℚ) (weights_ : List ℚ) (y_true y_pred : Tensor2)
    (step_i : Nat) :
    ∀ (k i : Nat) (acc : ℚ), i + k ≤ weights_.length →
      ∃ v, crossEntropyRow log eps weights_ y_true y_pred step_i k i acc = .ok v := by
  intro k
  induction k with
  | zero => intro i acc _; exact ⟨acc, rfl⟩
  | succ k ih =>
    intro i acc h
    have hi : i < weights_.length := by omega
    simp only [crossEntropyRow, weightAt, List.getElem?_eq_getElem hi]
    exact ih (i + 1) _ (by omega)

theorem crossEntropyRows_ok (log : ℚ → ℚ) (eps : ℚ) (weights_ : List ℚ) (y_true y_pred : Tensor2)
    (h : y_true.shape1 ≤ weights_.length) :
    ∀ (k bi : Nat) (acc : ℚ),
      ∃ v, crossEntropyRows log eps weights_ y_true y_pred k bi acc = .ok v := by
  intro k
  induction k with
  | zero => intro bi acc; exact ⟨acc, rfl⟩
  | succ k ih =>
    intro bi acc
    obtain ⟨v, hv⟩ := crossEntropyRow_ok log eps weights_ y_true y_pred (bi * y_true.stride0)
      y_true.shape1 0 0 (by omega)
    simp only [crossEntropyRows, hv]
    exact ih (bi + 1) _

/-- Claim C8. `LWCategoricalCrossEntropy::value` fails with the error
"weights must have same shape of pred->shape[1]" exactly when the number of weights differs
from `shape[1]` of the target tensor; when they are equal it returns a value, so that no
access `weights_[i]` it makes leaves `0 .. weights_.size()-1`. -/
theorem value_error_iff_size_mismatch (log : ℚ → ℚ) (eps : ℚ) (weights_ : List ℚ)
    (T Y : Tensor2) :
    (LWCategoricalCrossEntropy.value log eps weights_ T Y =
        .error "weights must have same shape of pred->shape[1]" ↔
      weights_.length ≠ T.shape1) ∧
    ((∃ v, LWCategoricalCrossEntropy.value log eps weights_ T Y = .ok v) ↔
      weights_.length = T.shape1) ∧
    LWCategoricalCrossEntropy.value log eps weights_ T Y ≠ .error weightsIndexError := by
  by_cases h : weights_.length = T.shape1
  · obtain ⟨v, hv⟩ := crossEntropyRows_ok log eps weights_ T Y (le_of_eq h.symm) T.shape0 0 0
    have e : LWCategoricalCrossEntropy.value log eps weights_ T Y = .ok (-v) := by
      simp [LWCategoricalCrossEntropy.value, h, hv]
    rw [e]
    simp [h]
  · have e : LWCategoricalCrossEntropy.value log eps weights_ T Y = .error weightsShapeError := by
      simp [LWCategoricalCrossEntropy.value, h]
    rw [e]
    refine ⟨by simp [h, weightsShapeError], by simp [h], ?_⟩
    simp [weightsShapeError, weightsIndexError]

/-! ## Theorems: the class scan -/

theorem classeInv_step (result target : List ℚ) (c : Nat) (st : ScanState)
    (h : ClasseInv result c st) :
    ClasseInv result (c + 1) (scanFrom result target 1 c st) := by
  simp only [scanFrom]
  have key : ClasseInv result (c + 1)
      (if result.getD c 0 > st.max then { st with max := result.getD c 0, classe := c }
        else st) := by
    by_cases hgt : result.getD c 0 > st.max
    · rw [if_pos hgt]
      right
      refine ⟨c, rfl, Nat.lt_succ_self c, rfl, ?_, ?_, ?_⟩
      · rcases h with ⟨-, hm, -⟩ | ⟨m, -, -, -, hm, -, -⟩
        · exact hm ▸ hgt
        · exact lt_trans hm hgt
      · intro j hj
        rcases Nat.eq_or_lt_of_le (Nat.le_of_lt_succ hj) with rfl | hj'
        · exact le_refl _
        · rcases h with ⟨-, hm, hall⟩ | ⟨m, -, -, -, -, hall, -⟩
          · exact le_of_lt (lt_of_le_of_lt (hall j hj') (hm ▸ hgt))
          · exact le_of_lt (lt_of_le_of_lt (hall j hj') hgt)
      · intro j hj
        rcases h with ⟨-, hm, hall⟩ | ⟨m, -, -, -, -, hall, -⟩
        · exact lt_of_le_of_lt (hall j hj) (hm ▸ hgt)
        · exact lt_of_le_of_lt (hall j hj) hgt
    · rw [if_neg hgt]
      have hle : result.getD c 0 ≤ st.max := not_lt.mp hgt
      rcases h with ⟨h1, hm, hall⟩ | ⟨m, h1, hmc, hmax, hthr, hall, hfirst⟩
      · left
        refine ⟨h1, hm, ?_⟩
        intro j hj
        rcases Nat.eq_or_lt_of_le (Nat.le_of_lt_succ hj) with rfl | hj'
        · exact hm ▸ hle
        · exact hall j hj'
      · right
        refine ⟨m, h1, Nat.lt_succ_of_lt hmc, hmax, hthr, ?_, hfirst⟩
        intro j hj
        rcases Nat.eq_or_lt_of_le (Nat.le_of_lt_succ hj) with rfl | hj'
        · exact hle
        · exact hall j hj'
  by_cases ht : target.getD c 0 = 1
  · rw [if_pos ht]
    rcases key with ⟨a, b, c'⟩ | ⟨m, a, b, c', d, e, f⟩
    · exact Or.inl ⟨a, b, c'⟩
    · exact Or.inr ⟨m, a, b, c', d, e, f⟩
  · rw [if_neg ht]
    exact key

theorem gtInv_step (result target : List ℚ) (c : Nat) (st : ScanState)
    (h : GtInv target c st) :
    GtInv target (c + 1) (scanFrom result target 1 c st) := by
  simp only [scanFrom]
  by_cases ht : target.getD c 0 = 1
  · rw [if_pos ht]
    right
    exact ⟨c, rfl, Nat.lt_succ_self c, ht, fun j h1 h2 => absurd h2 (by omega)⟩
  · rw [if_neg ht]
    have hgt : (if result.getD c 0 > st.max then
        ({ st with max := result.getD c 0, classe := c } : ScanState) else st).gt_class
        = st.gt_class := by
      split <;> rfl
    rcases h with ⟨h1, hall⟩ | ⟨m, h1, hmc, hm1, hall⟩
    · left
      refine ⟨hgt.trans h1, ?_⟩
      intro j hj
      rcases Nat.eq_or_lt_of_le (Nat.le_of_lt_succ hj) with rfl | hj'
      · exact ht
      · exact hall j hj'
    · right
      refine ⟨m, hgt.trans h1, Nat.lt_succ_of_lt hmc, hm1, ?_⟩
      intro j hmj hj
      rcases Nat.eq_or_lt_of_le (Nat.le_of_lt_succ hj) with rfl | hj'
      · exact ht
      · exact hall j hmj hj'

theorem scanFrom_succ (result target : List ℚ) (k c : Nat) (st : ScanState) :
    scanFrom result target (k + 1) c st =
      scanFrom result target k (c + 1) (scanFrom result target 1 c st) := by
  simp [scanFrom]

theorem scanFrom_inv (result target : List ℚ) :
    ∀ (k c : Nat) (st : ScanState), ClasseInv result c st → GtInv target c st →
      ClasseInv result (c + k) (scanFrom result target k c st) ∧
        GtInv target (c + k) (scanFrom result target k c st) := by
  intro k
  induction k with
  | zero => intro c st h1 h2; exact ⟨h1, h2⟩
  | succ k ih =>
    intro c st h1 h2
    rw [scanFrom_succ]
    have := ih (c + 1) _ (classeInv_step result target c st h1) (gtInv_step result target c st h2)
    rw [show c + (k + 1) = c + 1 + k by omega]
    exact this

theorem scanRow_inv (result target : List ℚ) :
    ClasseInv result result.length (scanRow result target) ∧
      GtInv target result.length (scanRow result target) := by
  have := scanFrom_inv result target result.length 0
    { max := FLT_MIN, classe := -1, gt_class := -1 }
    (Or.inl ⟨rfl, rfl, fun j hj => absurd hj (Nat.not_lt_zero j)⟩)
    (Or.inl ⟨rfl, fun j hj => absurd hj (Nat.not_lt_zero j)⟩)
  simpa [scanRow] using this
theorem some_score_above_threshold (result : List ℚ) (hK : result.length < 2 ^ 32)
    (hsum : result.sum = 1) : ∃ j, j < result.length ∧ FLT_MIN < result.getD j 0 := by
  by_contra hcon
  push_neg at hcon
  have hall : ∀ x ∈ result, x ≤ FLT_MIN := by
    intro x hx
    obtain ⟨j, hj, rfl⟩ := List.getElem_of_mem hx
    have := hcon j hj
    rwa [List.getD_eq_getElem _ _ hj] at this
  have h1 := List.sum_le_card_nsmul result FLT_MIN hall
  rw [hsum, nsmul_eq_mul] at h1
  have h2 : (result.length : ℚ) < 2 ^ 32 := by exact_mod_cast hK
  have h3 : (result.length : ℚ) * FLT_MIN < 1 := by
    unfold FLT_MIN
    have : (result.length : ℚ) * (1 / 2 ^ 126) < 2 ^ 32 * (1 / 2 ^ 126) := by
      apply mul_lt_mul_of_pos_right h2
      positivity
    refine lt_trans this ?_
    norm_num
  exact absurd h1 (not_le.mpr h3)

/-- Claim C9. For an output row of `K ≥ 1` scores (with `K < 2^31`, so that the index fits
the `int` variable `classe`) that are non-negative and sum to 1, some score exceeds
`FLT_MIN` and the scan
leaves in `classe` the smallest index at which the row attains its maximum, with
`0 ≤ classe < K`; and for a one-hot target row of the same length, `gt_class` is the index
of its single 1. -/
theorem scan_classe_is_first_argmax_and_gt_class (result target : List ℚ) :
    ((1 ≤ result.length ∧ result.length < 2 ^ 31 ∧ (∀ x ∈ result, 0 ≤ x) ∧ result.sum = 1) →
      ∃ m : Nat, (scanRow result target).classe = (m : Int) ∧ m < result.length ∧
        FLT_MIN < result.getD m 0 ∧
        (∀ j, j < result.length → result.getD j 0 ≤ result.getD m 0) ∧
        (∀ j, j < m → result.getD j 0 < result.getD m 0)) ∧
    (∀ i0 : Nat, (target.length = result.length ∧ i0 < target.length ∧ target.getD i0 0 = 1 ∧
        (∀ j, j < target.length → j ≠ i0 → target.getD j 0 = 0)) →
      (scanRow result target).gt_class = (i0 : Int)) := by
  obtain ⟨hc, hg⟩ := scanRow_inv result target
  refine ⟨?_, ?_⟩
  · rintro ⟨-, hK, -, hsum⟩
    obtain ⟨j, hj, hjthr⟩ := some_score_above_threshold result
      (lt_trans hK (by norm_num)) hsum
    rcases hc with ⟨-, -, hall⟩ | ⟨m, h1, hm, hmax, hthr, hall, hfirst⟩
    · exact absurd hjthr (not_lt.mpr (hall j hj))
    · exact ⟨m, h1, hm, hmax ▸ hthr, fun j hj => hmax ▸ hall j hj,
        fun j hj => hmax ▸ hfirst j hj⟩
  · rintro i0 ⟨hlen, hi0, h1, h0⟩
    rcases hg with ⟨-, hall⟩ | ⟨m, hm, hmlt, hm1, hall⟩
    · exact absurd h1 (hall i0 (hlen ▸ hi0))
    · have : m = i0 := by
        by_contra hne
        have := h0 m (hlen ▸ hmlt) hne
        rw [hm1] at this
        exact one_ne_zero this
      rw [hm, this]

/-- Claim C9 on the row `(1/10, 4/10, 4/10, 1/10)` with target `(0, 0, 1, 0)`:
the tie between index 1 and index 2 is won by index 1, and `gt_class` is 2. -/
theorem scan_classe_is_first_argmax_and_gt_class_witness :
    (∃ m : Nat, (scanRow [1/10, 4/10, 4/10, 1/10] [0, 0, 1, 0]).classe = (m : Int) ∧
        m < 4 ∧ FLT_MIN < ([1/10, 4/10, 4/10, 1/10] : List ℚ).getD m 0 ∧
        (∀ j, j < 4 → ([1/10, 4/10, 4/10, 1/10] : List ℚ).getD j 0 ≤
          ([1/10, 4/10, 4/10, 1/10] : List ℚ).getD m 0) ∧
        (∀ j, j < m → ([1/10, 4/10, 4/10, 1/10] : List ℚ).getD j 0 <
          ([1/10, 4/10, 4/10, 1/10] : List ℚ).getD m 0)) ∧
      (scanRow [1/10, 4/10, 4/10, 1/10] [0, 0, 1, 0]).gt_class = 2 :=
  ⟨(scan_classe_is_first_argmax_and_gt_class [1/10, 4/10, 4/10, 1/10] [0, 0, 1, 0]).1
      ⟨by simp, by simp, by intro x hx; simp at hx; rcases hx with h | h | h <;> rw [h] <;> norm_num,
        by norm_num⟩,
    (scan_classe_is_first_argmax_and_gt_class [1/10, 4/10, 4/10, 1/10] [0, 0, 1, 0]).2 2
      ⟨rfl, by simp, by simp, by intro j hj hne; simp at hj; interval_cases j <;> simp_all⟩⟩

end SkinLesion
